import Mathlib

/-!
Verification of the publicsuffix library (publicsuffix.py).

The Python source is shallowly embedded below.  Python byte/unicode strings
are modelled as Lean `String` (a list of unicode characters); the final
`.decode('utf-8')` step of `_normalize` is the identity on text that is
already unicode, so the one failure mode this embedding cannot trigger is a
UTF-8 decoding error on byte input.  Every other exception a function can
raise (IndexError from `split()[0]` or `split('.', 1)[1]`) is modelled by
`Option`, with `none` meaning the Python call raises.

String-splitting primitives are implemented over `List Char` so that they
both evaluate by `decide`/`rfl` and admit induction.
-/

/-- Python 2 `str.split()` whitespace: space, tab, newline, carriage return,
vertical tab, form feed (character codes 32, 9, 10, 13, 11, 12). -/
def pyIsSpace (c : Char) : Bool :=
  c.toNat = 32 || c.toNat = 9 || c.toNat = 10 || c.toNat = 13 || c.toNat = 11 || c.toNat = 12

/-- Python 2 `str.lower()` on bytes is ASCII-only lowercasing, exactly
`Char.toLower` applied to each character. -/
def pyLower (s : String) : String := String.mk (s.data.map Char.toLower)

/-- Python `s.startswith(pre)`. -/
def pyStartsWith (s pre : String) : Bool := pre.data.isPrefixOf s.data

/-- Python `s[1:]`. -/
def pyTail (s : String) : String := String.mk s.data.tail

/-- Python `s.split()[0]`: the first maximal run of non-whitespace
characters; `none` when there is no token (Python raises IndexError). -/
def firstToken (s : String) : Option String :=
  match s.data.dropWhile pyIsSpace with
  | [] => none
  | c :: cs => some (String.mk ((c :: cs).takeWhile (fun x => !pyIsSpace x)))

/-- `_normalize` from publicsuffix.py: drop one leading '.', keep the first
whitespace-separated token, lowercase.  `none` models the IndexError raised
by `s.split()[0]` on an empty/whitespace-only string. -/
def _normalize (s : String) : Option String :=
  (firstToken (if pyStartsWith s "." then pyTail s else s)).map pyLower

/-- Python `s.split('.')` on character lists. -/
def splitDotCh : List Char → List (List Char)
  | [] => [[]]
  | c :: cs =>
    if c = '.' then [] :: splitDotCh cs
    else
      match splitDotCh cs with
      | [] => [[c]]
      | l :: ls => (c :: l) :: ls

/-- Python `s.split('.')`. -/
def splitDot (s : String) : List String := (splitDotCh s.data).map String.mk

/-- Python `'.'.join(chunks)` on character lists. -/
def joinDotCh : List (List Char) → List Char
  | [] => []
  | [l] => l
  | l :: l2 :: ls => l ++ '.' :: joinDotCh (l2 :: ls)

/-- Python `'.'.join(chunks)`. -/
def joinDot (ls : List String) : String := String.mk (joinDotCh (ls.map String.data))

/-- Python `s.rsplit('.', maxsplit)`. -/
def pyRsplit (s : String) (maxsplit : Nat) : List String :=
  let parts := splitDot s
  if parts.length ≤ maxsplit + 1 then parts
  else joinDot (parts.take (parts.length - maxsplit)) :: parts.drop (parts.length - maxsplit)

/-- Python `s.rsplit('.', 1)[-1]` (the rsplit list is never empty). -/
def pyLastLabel (s : String) : String := (pyRsplit s 1).getLastD ""

/-- Python `s[:-n]` for `n ≥ 1`: all but the last `n` characters, empty when
`n ≥ len(s)`. -/
def pyDropRight (s : String) (n : Nat) : String :=
  String.mk (s.data.take (s.data.length - n))

/-- Python `s.split('.', 1)[1]`: everything after the first '.';
`none` when `s` has no '.' (Python raises IndexError). -/
def stripLeft (s : String) : Option String :=
  match splitDot s with
  | [] => none
  | [_] => none
  | _ :: l :: ls => some (joinDot (l :: ls))

/-- The `Rule` class: exception flag, reversed label tuple (index 0 is the
rightmost DNS label), and the normalized pattern text. -/
structure Rule where
  is_exception : Bool
  labels : List String
  s : String
deriving DecidableEq

/-- `Rule.__init__(s)`: strip a leading '!', normalize, split on '.' and
reverse.  `none` models the exception raised when `_normalize` fails. -/
def Rule.make (p : String) : Option Rule :=
  (_normalize (if pyStartsWith p "!" then pyTail p else p)).map fun t =>
    { is_exception := pyStartsWith p "!", labels := (splitDot t).reverse, s := t }

/-- The matching loop of `Rule.match`: every rule label must be the wildcard
or equal the host label at the same (reversed) index; host labels beyond the
rule's length are never inspected (the loop breaks on IndexError). -/
def labelsFit : List String → List String → Bool
  | [], _ => true
  | _ :: _, [] => true
  | r :: rs, h :: hs => (r == "*" || h == r) && labelsFit rs hs

/-- `Rule.match(domain)`: normalize the host, reverse its labels, reject when
the rule has more labels than the host, otherwise compare positionally.
`none` models the IndexError `_normalize` can raise. -/
def Rule.match' (self : Rule) (domain : String) : Option Bool :=
  (_normalize domain).map fun d =>
    let hl := (splitDot d).reverse
    if self.labels.length > hl.length then false
    else labelsFit self.labels hl

/-- Python 2 `cmp` on naturals. -/
def pyCmpNat (a b : Nat) : Int := if a < b then -1 else if b < a then 1 else 0

/-- Python 2 `cmp` on booleans (False < True). -/
def pyCmpBool (a b : Bool) : Int := pyCmpNat a.toNat b.toNat

/-- `Rule.__cmp__`: rules with equal exception status compare by negated
label count (more labels first); exception rules sort before others. -/
def Rule.cmp (self other : Rule) : Int :=
  if pyCmpBool self.is_exception other.is_exception = 0 then
    -1 * pyCmpNat self.labels.length other.labels.length
  else if self.is_exception then (if other.is_exception then 0 else -1)
  else (if other.is_exception then 1 else 0)

/-- `a` sorts no later than `b` under `Rule.__cmp__`. -/
def ruleLe (a b : Rule) : Bool := decide (Rule.cmp a b ≤ 0)

/-- One step of a stable insertion sort with respect to `ruleLe`: the new
element goes after every element that is ≤ it. -/
def insertSorted (r : Rule) : List Rule → List Rule
  | [] => [r]
  | x :: xs => if ruleLe x r then x :: insertSorted r xs else r :: x :: xs

/-- Python 2 `sorted(rules)` under `Rule.__cmp__`.  Python's sort is the
stable sort, which is unique for this total preorder; a left-to-right
stable insertion sort computes the same list. -/
def sortRules (l : List Rule) : List Rule := l.foldl (fun acc r => insertSorted r acc) []

/-- A `SuffixList` is an ordered list of rules. -/
abbrev SuffixList := List Rule

/-- The generator expression `r for r in self if r.match(host)` as
materialized by `sorted`: the sub-list of matching rules, `none` as soon as
one `match` call raises. -/
def matchersM : List Rule → String → Option (List Rule)
  | [], _ => some []
  | r :: rs, g =>
    match Rule.match' r g with
    | none => none
    | some b => (matchersM rs g).map fun ms => if b then r :: ms else ms

/-- Body of `SuffixList.tld` after its own `_normalize` call: sort the
matching rules, use the best one's label count to cut a suffix off the host
with `rsplit`, or fall back to the host's last label. -/
def tldBody (rules : List Rule) (g : String) : Option String :=
  match matchersM rules g with
  | none => none
  | some ms =>
    match sortRules ms with
    | [] => some (pyLastLabel g)
    | rule :: _ =>
      some (if rule.is_exception then joinDot ((pyRsplit g (rule.labels.length - 1)).drop 1)
        else if (splitDot g).length = rule.labels.length then g
        else joinDot ((pyRsplit g rule.labels.length).drop 1))

/-- `SuffixList.tld(host)`. -/
def SuffixList.tld (self : SuffixList) (host : String) : Option String :=
  match _normalize host with
  | none => none
  | some g => tldBody self g

/-- `SuffixList.domain(host)`: outer `none` models an exception, inner
`none` models Python's implicit `None` return (no registrable domain).
Note that `self.tld(host)` normalizes the already-normalized host again. -/
def SuffixList.domain (self : SuffixList) (host : String) : Option (Option String) :=
  match _normalize host with
  | none => none
  | some h =>
    match SuffixList.tld self h with
    | none => none
    | some t =>
      some (if h ≠ t then some (pyLastLabel (pyDropRight h (t.length + 1)) ++ "." ++ t)
        else none)

/-- Python `host != domain` where `domain` may be `None`: a string never
equals `None`, so the test is true whenever the domain is absent. -/
def neOpt (s : String) (d : Option String) : Bool :=
  match d with
  | none => true
  | some t => s != t

/-- The while-loop of `iter_parents`.  Returns the yielded values and an ok
flag; `false` means the loop raised IndexError after those yields.  The
current string strictly shrinks at each step, so any fuel larger than its
length gives the loop's exact behaviour. -/
def loopYield : Nat → Option String → String → List String × Bool
  | 0, _, _ => ([], false)
  | f + 1, dom, p =>
    if neOpt p dom then
      match stripLeft p with
      | none => ([p], false)
      | some p2 =>
        let r := loopYield f dom p2
        (p :: r.1, r.2)
    else
      match dom with
      | some t => ([t], true)
      | none => ([], true)

/-- `SuffixList.iter_parents(host)`, fully materialized: the list of yielded
values plus an ok flag (`false` when the generator raises IndexError after
those yields); outer `none` when it raises before any decision. -/
def SuffixList.iterParents (self : SuffixList) (host : String) : Option (List String × Bool) :=
  match _normalize host with
  | none => none
  | some h =>
    match SuffixList.domain self h with
    | none => none
    | some dom =>
      some (if neOpt h dom then
          match stripLeft h with
          | none => ([], false)
          | some p => loopYield (h.length + 1) dom p
        else ([], true))

/-- `SuffixList.parent(host)`: the first yielded value of `iter_parents`
(laziness means a crash after the first yield is never observed), inner
`none` when the generator finishes without yielding. -/
def SuffixList.parent (self : SuffixList) (host : String) : Option (Option String) :=
  match SuffixList.iterParents self host with
  | none => none
  | some (p :: _, _) => some (some p)
  | some ([], true) => some none
  | some ([], false) => none

/-- `SuffixList.parents(host)`: `list(iter_parents(host))`; `none` when the
generator raises anywhere. -/
def SuffixList.parents (self : SuffixList) (host : String) : Option (List String) :=
  match SuffixList.iterParents self host with
  | none => none
  | some (l, true) => some l
  | some (_, false) => none

/-- Python `if s and not s.startswith('//')`: keep non-empty non-comment
lines. -/
def keepLine (s : String) : Bool := s != "" && !pyStartsWith s "//"

/-- `SuffixList.insert(i, s)`: parse and insert kept lines (Python's
`list.insert` clamps the index, which `take`/`drop` reproduce); skip blank
and comment lines; `none` when `Rule` construction raises. -/
def SuffixList.insert (self : SuffixList) (i : Nat) (s : String) : Option SuffixList :=
  if keepLine s then (Rule.make s).map fun r => self.take i ++ r :: self.drop i
  else some self

/-- `SuffixList.append(s)` = `insert(len(self), s)`. -/
def SuffixList.push (self : SuffixList) (s : String) : Option SuffixList :=
  SuffixList.insert self self.length s

/-- `SuffixList(lines)`: append each line in order (`__init__` delegates to
`__iadd__`, which appends line by line); the first failing line aborts. -/
def SuffixList.fromLines (lines : List String) : Option SuffixList :=
  lines.foldlM (fun rs s => SuffixList.push rs s) ([] : SuffixList)

/-- `SuffixList.__add__`: parse the kept lines of `seq` into rules and
concatenate (the list comprehension parses left to right, propagating the
first failure). -/
def SuffixList.addLines (self : SuffixList) (seq : List String) : Option SuffixList :=
  ((seq.filter keepLine).mapM Rule.make).map fun rs => self ++ rs

/-- The pattern text Python tokenizes in `Rule.__init__`: the argument
after removing a leading '!' and then an optional leading '.'. -/
def effectivePattern (p : String) : String :=
  if pyStartsWith (if pyStartsWith p "!" then pyTail p else p) "." then
    pyTail (if pyStartsWith p "!" then pyTail p else p)
  else (if pyStartsWith p "!" then pyTail p else p)

/-- The ancestor chain the spec describes: starting from `p`, repeatedly
strip the leftmost label, yielding each value, until the value equals `d`,
which is yielded last.  Fuel bounds the recursion; any fuel above the
length of `p` is enough, since stripping shortens the string. -/
def ancestorChain : Nat → String → String → List String
  | 0, _, _ => []
  | f + 1, p, d => if p = d then [d] else p :: ancestorChain f ((stripLeft p).getD "") d

/-- The best matching rule `tld` would pick for an already-normalized host
`g`: outer `none` if a match call raises, inner `none` if no rule
matches. -/
def bestMatch (rules : List Rule) (g : String) : Option (Option Rule) :=
  match matchersM rules g with
  | none => none
  | some ms => some (sortRules ms).head?

/-- Left-to-right parsing of a line sequence, stopping at the first
failure (the semantics of Python's list comprehension over `Rule(s)`). -/
def parseLines : List String → Option (List Rule)
  | [] => some []
  | s :: rest =>
    match Rule.make s with
    | none => none
    | some r => (parseLines rest).map fun rs => r :: rs

/-- "The last `m` dot-separated labels of `s`, joined by '.'" — the spec's
phrasing for suffix extraction. -/
def lastLabels (m : Nat) (s : String) : String :=
  joinDot ((splitDot s).drop ((splitDot s).length - m))

/-- Invariant of `_normalize` output: non-empty, whitespace-free,
ASCII-lowercase-fixed characters. -/
def normalForm (h : String) : Prop :=
  h.data ≠ [] ∧ ∀ c ∈ h.data, pyIsSpace c = false ∧ Char.toLower c = c

/-- Sortedness with respect to the comparator. -/
def rulesSorted (l : List Rule) : Prop := l.Pairwise (fun x y => ruleLe x y = true)

/-! ### Basic facts about the character-list string primitives -/

theorem string_mk_data (s : String) : String.mk s.data = s := rfl

theorem string_data_inj {s t : String} (h : s.data = t.data) : s = t := by
  cases s; cases t
  exact congrArg String.mk h

theorem char_toNat_ofNat {n : Nat} (h : n < 0xd800) : (Char.ofNat n).toNat = n := by
  unfold Char.ofNat
  rw [dif_pos (Or.inl h)]
  rfl

theorem toLower_idem (c : Char) : Char.toLower (Char.toLower c) = Char.toLower c := by
  unfold Char.toLower
  by_cases h : c.toNat ≥ 65 ∧ c.toNat ≤ 90
  · rw [if_pos h]
    have hv : (Char.ofNat (c.toNat + 32)).toNat = c.toNat + 32 := char_toNat_ofNat (by omega)
    rw [if_neg (by rw [hv]; omega)]
  · rw [if_neg h, if_neg h]

theorem pyIsSpace_toLower (c : Char) : pyIsSpace (Char.toLower c) = pyIsSpace c := by
  unfold Char.toLower
  by_cases h : c.toNat ≥ 65 ∧ c.toNat ≤ 90
  · rw [if_pos h]
    have hv : (Char.ofNat (c.toNat + 32)).toNat = c.toNat + 32 := char_toNat_ofNat (by omega)
    have ha : pyIsSpace (Char.ofNat (c.toNat + 32)) = false := by
      simp only [pyIsSpace, hv, Bool.or_eq_false_iff, decide_eq_false_iff_not]
      omega
    have hb : pyIsSpace c = false := by
      simp only [pyIsSpace, Bool.or_eq_false_iff, decide_eq_false_iff_not]
      omega
    rw [ha, hb]
  · rw [if_neg h]

theorem splitDotCh_ne_nil (cs : List Char) : splitDotCh cs ≠ [] := by
  induction cs with
  | nil => simp [splitDotCh]
  | cons c cs ih =>
    simp only [splitDotCh]
    by_cases hc : c = '.'
    · simp [hc]
    · rw [if_neg hc]
      cases hr : splitDotCh cs with
      | nil => simp
      | cons l ls => simp

theorem splitDotCh_cons_dot (cs : List Char) :
    splitDotCh ('.' :: cs) = [] :: splitDotCh cs := by
  simp [splitDotCh]

theorem splitDotCh_cons_ne {c : Char} (hc : c ≠ '.') {cs : List Char} {l : List Char}
    {ls : List (List Char)} (hr : splitDotCh cs = l :: ls) :
    splitDotCh (c :: cs) = (c :: l) :: ls := by
  simp only [splitDotCh, if_neg hc, hr]

theorem joinDotCh_cons (x : List Char) (L : List (List Char)) (h : L ≠ []) :
    joinDotCh (x :: L) = x ++ '.' :: joinDotCh L := by
  cases L with
  | nil => exact absurd rfl h
  | cons l ls => rfl

theorem joinDotCh_splitDotCh (cs : List Char) : joinDotCh (splitDotCh cs) = cs := by
  induction cs with
  | nil => rfl
  | cons c cs ih =>
    simp only [splitDotCh]
    by_cases hc : c = '.'
    · rw [if_pos hc]
      rw [joinDotCh_cons _ _ (splitDotCh_ne_nil cs), ih, hc]
      rfl
    · rw [if_neg hc]
      cases hr : splitDotCh cs with
      | nil => exact absurd hr (splitDotCh_ne_nil cs)
      | cons l ls =>
        rw [hr] at ih
        cases ls with
        | nil => simpa [joinDotCh] using congrArg (c :: ·) ih
        | cons l2 ls2 =>
          rw [joinDotCh_cons _ _ (by simp)] at ih ⊢
          rw [← ih]
          simp

theorem noDot_splitDotCh (cs : List Char) : ∀ l ∈ splitDotCh cs, ('.' : Char) ∉ l := by
  induction cs with
  | nil => simp [splitDotCh]
  | cons c cs ih =>
    by_cases hc : c = '.'
    · subst hc
      rw [splitDotCh_cons_dot]
      intro l hl
      rcases List.mem_cons.mp hl with h1 | h2
      · simp [h1]
      · exact ih l h2
    · cases hr : splitDotCh cs with
      | nil => exact absurd hr (splitDotCh_ne_nil cs)
      | cons l0 ls =>
        rw [splitDotCh_cons_ne hc hr]
        intro l hl
        rcases List.mem_cons.mp hl with h1 | h2
        · subst h1
          intro hmem
          rcases List.mem_cons.mp hmem with h3 | h4
          · exact hc h3.symm
          · refine ih l0 ?_ h4
            rw [hr]
            exact List.mem_cons_self _ _
        · refine ih l ?_
          rw [hr]
          exact List.mem_cons_of_mem _ h2

theorem splitDotCh_append (a b : List Char) :
    splitDotCh (a ++ '.' :: b) = splitDotCh a ++ splitDotCh b := by
  induction a with
  | nil => simp [splitDotCh_cons_dot, splitDotCh]
  | cons c a ih =>
    rw [List.cons_append]
    by_cases hc : c = '.'
    · subst hc
      rw [splitDotCh_cons_dot, splitDotCh_cons_dot, ih, List.cons_append]
    · cases hr : splitDotCh a with
      | nil => exact absurd hr (splitDotCh_ne_nil a)
      | cons l ls =>
        have hvb : splitDotCh (a ++ '.' :: b) = l :: (ls ++ splitDotCh b) := by
          rw [ih, hr, List.cons_append]
        rw [splitDotCh_cons_ne hc hvb, splitDotCh_cons_ne hc hr, List.cons_append]

theorem splitDotCh_of_noDot (l : List Char) (h : ('.' : Char) ∉ l) : splitDotCh l = [l] := by
  induction l with
  | nil => rfl
  | cons c cs ih =>
    have hc : c ≠ '.' := fun hh => h (by simp [hh])
    simp only [splitDotCh, if_neg hc]
    rw [ih (fun hh => h (List.mem_cons_of_mem _ hh))]

theorem splitDotCh_joinDotCh (L : List (List Char)) (hne : L ≠ [])
    (hnd : ∀ l ∈ L, ('.' : Char) ∉ l) : splitDotCh (joinDotCh L) = L := by
  induction L with
  | nil => exact absurd rfl hne
  | cons l ls ih =>
    cases ls with
    | nil => exact splitDotCh_of_noDot l (hnd l (by simp))
    | cons l2 ls2 =>
      rw [joinDotCh_cons _ _ (by simp), splitDotCh_append,
        splitDotCh_of_noDot l (hnd l (by simp)),
        ih (by simp) (fun x hx => hnd x (List.mem_cons_of_mem _ hx))]
      rfl

theorem joinDotCh_append (A B : List (List Char)) (hA : A ≠ []) (hB : B ≠ []) :
    joinDotCh (A ++ B) = joinDotCh A ++ '.' :: joinDotCh B := by
  induction A with
  | nil => exact absurd rfl hA
  | cons l ls ih =>
    cases ls with
    | nil =>
      rw [List.singleton_append, joinDotCh_cons _ _ hB]
      rfl
    | cons l2 ls2 =>
      rw [List.cons_append, joinDotCh_cons _ _ (by simp), joinDotCh_cons _ _ (by simp),
        ih (by simp)]
      simp

theorem mem_of_mem_splitDotCh {c : Char} {l cs : List Char}
    (hl : l ∈ splitDotCh cs) (hc : c ∈ l) : c ∈ cs := by
  induction cs generalizing l with
  | nil =>
    simp [splitDotCh] at hl
    subst hl
    exact absurd hc (by simp)
  | cons d cs ih =>
    by_cases hd : d = '.'
    · subst hd
      rw [splitDotCh_cons_dot] at hl
      rcases List.mem_cons.mp hl with h1 | h2
      · subst h1; exact absurd hc (by simp)
      · exact List.mem_cons_of_mem _ (ih h2 hc)
    · cases hr : splitDotCh cs with
      | nil => exact absurd hr (splitDotCh_ne_nil cs)
      | cons l0 ls =>
        rw [splitDotCh_cons_ne hd hr] at hl
        rcases List.mem_cons.mp hl with h1 | h2
        · subst h1
          rcases List.mem_cons.mp hc with h3 | h4
          · simp [h3]
          · refine List.mem_cons_of_mem _ (ih (l := l0) ?_ h4)
            rw [hr]
            exact List.mem_cons_self _ _
        · refine List.mem_cons_of_mem _ (ih ?_ hc)
          rw [hr]
          exact List.mem_cons_of_mem _ h2

theorem mem_joinDotCh {c : Char} {L : List (List Char)} (hc : c ∈ joinDotCh L) :
    (∃ l ∈ L, c ∈ l) ∨ c = '.' := by
  induction L with
  | nil => exact absurd hc (by simp [joinDotCh])
  | cons l ls ih =>
    cases ls with
    | nil =>
      left
      exact ⟨l, by simp, by simpa [joinDotCh] using hc⟩
    | cons l2 ls2 =>
      rw [joinDotCh_cons _ _ (by simp)] at hc
      rcases List.mem_append.mp hc with h1 | h2
      · exact Or.inl ⟨l, by simp, h1⟩
      · rcases List.mem_cons.mp h2 with h3 | h4
        · exact Or.inr h3
        · rcases ih h4 with ⟨l0, hl0, hcl0⟩ | hdot
          · exact Or.inl ⟨l0, List.mem_cons_of_mem _ hl0, hcl0⟩
          · exact Or.inr hdot

/-! ### String-level consequences -/

theorem splitDot_ne_nil (s : String) : splitDot s ≠ [] := by
  unfold splitDot
  simp only [ne_eq, List.map_eq_nil_iff]
  exact splitDotCh_ne_nil _

theorem data_joinDot (L : List String) : (joinDot L).data = joinDotCh (L.map String.data) := rfl

theorem data_splitDot_map (s : String) : (splitDot s).map String.data = splitDotCh s.data := by
  unfold splitDot
  rw [List.map_map]
  have h : (String.data ∘ String.mk) = id := funext (fun l => rfl)
  rw [h, List.map_id]

theorem joinDot_splitDot (s : String) : joinDot (splitDot s) = s := by
  apply string_data_inj
  rw [data_joinDot, data_splitDot_map, joinDotCh_splitDotCh]

theorem noDot_splitDot (s : String) : ∀ l ∈ splitDot s, ('.' : Char) ∉ l.data := by
  intro l hl
  unfold splitDot at hl
  rcases List.mem_map.mp hl with ⟨lc, hlc, rfl⟩
  exact noDot_splitDotCh _ lc hlc

theorem splitDot_joinDot (L : List String) (hne : L ≠ [])
    (hnd : ∀ l ∈ L, ('.' : Char) ∉ l.data) : splitDot (joinDot L) = L := by
  unfold splitDot
  rw [data_joinDot, splitDotCh_joinDotCh (L.map String.data) (by simpa)
    (fun lc hlc => by
      rcases List.mem_map.mp hlc with ⟨t, ht, rfl⟩
      exact hnd t ht)]
  rw [List.map_map]
  have h : (String.mk ∘ String.data) = id := funext (fun t => rfl)
  rw [h, List.map_id]

theorem splitDot_of_data_append {s : String} {a b : List Char}
    (h : s.data = a ++ '.' :: b) :
    splitDot s = splitDot (String.mk a) ++ splitDot (String.mk b) := by
  unfold splitDot
  rw [h, splitDotCh_append, List.map_append]

theorem joinDot_cons (x : String) (L : List String) (h : L ≠ []) :
    (joinDot (x :: L)).data = x.data ++ '.' :: (joinDot L).data := by
  rw [data_joinDot, data_joinDot, List.map_cons, joinDotCh_cons _ _ (by simpa)]

theorem joinDot_append (A B : List String) (hA : A ≠ []) (hB : B ≠ []) :
    (joinDot (A ++ B)).data = (joinDot A).data ++ '.' :: (joinDot B).data := by
  rw [data_joinDot, data_joinDot, data_joinDot, List.map_append,
    joinDotCh_append _ _ (by simpa) (by simpa)]

theorem pyRsplit_drop_one {s : String} {m : Nat} (h : m < (splitDot s).length) :
    (pyRsplit s m).drop 1 = (splitDot s).drop ((splitDot s).length - m) := by
  unfold pyRsplit
  by_cases hle : (splitDot s).length ≤ m + 1
  · rw [if_pos hle]
    have h1 : (splitDot s).length - m = 1 := by omega
    rw [h1]
  · rw [if_neg hle]
    rw [List.drop_succ_cons, List.drop_zero]

theorem rsplit_join_eq_lastLabels {s : String} {m : Nat} (h : m < (splitDot s).length) :
    joinDot ((pyRsplit s m).drop 1) = lastLabels m s := by
  rw [pyRsplit_drop_one h]
  rfl

theorem pyLastLabel_eq (s : String) : pyLastLabel s = (splitDot s).getLastD "" := by
  unfold pyLastLabel pyRsplit
  by_cases hle : (splitDot s).length ≤ 2
  · rw [if_pos hle]
  · rw [if_neg hle]
    rcases List.eq_nil_or_concat (splitDot s) with hnil | ⟨L, b, hLb⟩
    · exact absurd hnil (splitDot_ne_nil s)
    · rw [List.concat_eq_append] at hLb
      rw [hLb]
      have hdrop : (L ++ [b]).drop ((L ++ [b]).length - 1) = [b] := by
        simp
      rw [hdrop]
      simp [List.getLastD_concat]

/-! ### Normal forms produced by `_normalize` -/

theorem dropWhile_head_false {p : Char → Bool} {l : List Char} {c : Char} {cs : List Char}
    (h : l.dropWhile p = c :: cs) : p c = false := by
  induction l with
  | nil => simp [List.dropWhile] at h
  | cons a as ih =>
    rw [List.dropWhile_cons] at h
    by_cases hp : p a
    · rw [if_pos hp] at h
      exact ih h
    · rw [if_neg hp] at h
      cases h
      simpa using hp

theorem firstToken_clean {s t : String} (h : firstToken s = some t) :
    t.data ≠ [] ∧ ∀ c ∈ t.data, pyIsSpace c = false := by
  unfold firstToken at h
  cases hdw : s.data.dropWhile pyIsSpace with
  | nil =>
    rw [hdw] at h
    exact absurd h (by simp)
  | cons c cs =>
    rw [hdw] at h
    have hc : pyIsSpace c = false := dropWhile_head_false hdw
    have ht : t = String.mk ((c :: cs).takeWhile (fun x => !pyIsSpace x)) := by
      cases h
      rfl
    subst ht
    constructor
    · show (c :: cs).takeWhile (fun x => !pyIsSpace x) ≠ []
      rw [List.takeWhile_cons, if_pos (by simp [hc])]
      simp
    · intro x hx
      have := List.mem_takeWhile_imp hx
      simpa using this

theorem firstToken_of_clean {t : String} (hne : t.data ≠ [])
    (hns : ∀ c ∈ t.data, pyIsSpace c = false) : firstToken t = some t := by
  unfold firstToken
  cases ht : t.data with
  | nil => exact absurd ht hne
  | cons c cs =>
    have hdw : (c :: cs).dropWhile pyIsSpace = c :: cs := by
      rw [List.dropWhile_cons, if_neg (by simp [hns c (ht ▸ List.mem_cons_self _ _)])]
    rw [hdw]
    have htw : (c :: cs).takeWhile (fun x => !pyIsSpace x) = c :: cs := by
      rw [List.takeWhile_eq_self_iff]
      intro x hx
      simp [hns x (ht ▸ hx)]
    show some (String.mk (List.takeWhile (fun x => !pyIsSpace x) (c :: cs))) = some t
    rw [htw, ← ht, string_mk_data]

theorem pyLower_fixed {t : String} (hfix : ∀ c ∈ t.data, Char.toLower c = c) :
    pyLower t = t := by
  apply string_data_inj
  show t.data.map Char.toLower = t.data
  rw [List.map_congr_left hfix]
  exact List.map_id t.data

theorem normalize_normalForm {s h : String} (hn : _normalize s = some h) : normalForm h := by
  unfold _normalize at hn
  cases hft : firstToken (if pyStartsWith s "." then pyTail s else s) with
  | none =>
    rw [hft] at hn
    exact absurd hn (by simp)
  | some t =>
    rw [hft] at hn
    have ht : h = pyLower t := by
      cases hn
      rfl
    subst ht
    obtain ⟨hne, hns⟩ := firstToken_clean hft
    refine ⟨by simpa [pyLower] using hne, ?_⟩
    intro c hc
    rcases List.mem_map.mp (show c ∈ t.data.map Char.toLower from hc) with ⟨c0, hc0, rfl⟩
    exact ⟨by rw [pyIsSpace_toLower]; exact hns c0 hc0, toLower_idem c0⟩

theorem dot_data : (".".data) = ['.'] := rfl

theorem startsDot_iff {s : String} : pyStartsWith s "." = true ↔ s.data.head? = some '.' := by
  unfold pyStartsWith
  rw [dot_data]
  cases hd : s.data with
  | nil => simp [List.isPrefixOf]
  | cons c cs =>
    simp only [List.isPrefixOf, List.head?_cons, Option.some.injEq, Bool.and_eq_true, beq_iff_eq]
    constructor
    · rintro ⟨h1, _⟩
      exact h1.symm
    · intro h1
      exact ⟨h1.symm, by simp [List.isPrefixOf]⟩

theorem normalize_of_normalForm_nodot {h : String} (hh : normalForm h)
    (hd : pyStartsWith h "." = false) : _normalize h = some h := by
  unfold _normalize
  simp only [hd, Bool.false_eq_true, if_false]
  rw [firstToken_of_clean hh.1 (fun c hc => (hh.2 c hc).1)]
  simp [pyLower_fixed (fun c hc => (hh.2 c hc).2)]

theorem normalize_of_normalForm_dot {h : String} {rest : List Char} (hh : normalForm h)
    (hd : h.data = '.' :: rest) :
    _normalize h = if rest = [] then none else some (String.mk rest) := by
  unfold _normalize
  have hsw : pyStartsWith h "." = true := startsDot_iff.mpr (by rw [hd]; rfl)
  simp only [hsw, if_true]
  have htail : pyTail h = String.mk rest := by
    unfold pyTail
    rw [hd]
    rfl
  rw [htail]
  cases rest with
  | nil =>
    rw [if_pos rfl]
    rfl
  | cons c cs =>
    rw [if_neg (by simp)]
    have hclean : ∀ x ∈ (String.mk (c :: cs)).data, pyIsSpace x = false := by
      intro x hx
      exact (hh.2 x (by rw [hd]; exact List.mem_cons_of_mem _ hx)).1
    rw [firstToken_of_clean (by simp) hclean]
    show some (pyLower (String.mk (c :: cs))) = some (String.mk (c :: cs))
    rw [pyLower_fixed (fun x hx => (hh.2 x (by rw [hd]; exact List.mem_cons_of_mem _ hx)).2)]

/-! ### The rule comparator and Python's stable sort -/

theorem cmp_le_zero_iff (a b : Rule) : Rule.cmp a b ≤ 0 ↔
    ((b.is_exception = true → a.is_exception = true) ∧
     (a.is_exception = b.is_exception → b.labels.length ≤ a.labels.length)) := by
  obtain ⟨ea, la, sa⟩ := a
  obtain ⟨eb, lb, sb⟩ := b
  simp only [Rule.cmp, pyCmpBool, pyCmpNat]
  cases ea <;> cases eb <;>
    simp only [Bool.toNat_true, Bool.toNat_false] <;>
    norm_num <;> split_ifs <;> omega

theorem cmp_lt_zero_iff (a b : Rule) : Rule.cmp a b < 0 ↔
    ((a.is_exception = true ∧ b.is_exception = false) ∨
     (a.is_exception = b.is_exception ∧ b.labels.length < a.labels.length)) := by
  obtain ⟨ea, la, sa⟩ := a
  obtain ⟨eb, lb, sb⟩ := b
  simp only [Rule.cmp, pyCmpBool, pyCmpNat]
  cases ea <;> cases eb <;>
    simp only [Bool.toNat_true, Bool.toNat_false] <;>
    norm_num <;> split_ifs <;> omega

theorem cmp_eq_zero_iff (a b : Rule) : Rule.cmp a b = 0 ↔
    (a.is_exception = b.is_exception ∧ a.labels.length = b.labels.length) := by
  obtain ⟨ea, la, sa⟩ := a
  obtain ⟨eb, lb, sb⟩ := b
  simp only [Rule.cmp, pyCmpBool, pyCmpNat]
  cases ea <;> cases eb <;>
    simp only [Bool.toNat_true, Bool.toNat_false] <;>
    norm_num <;> split_ifs <;> simp_all <;> omega

theorem ruleLe_iff (a b : Rule) : ruleLe a b = true ↔ Rule.cmp a b ≤ 0 := by
  unfold ruleLe
  exact decide_eq_true_iff

theorem ruleLe_total (a b : Rule) : ruleLe a b = true ∨ ruleLe b a = true := by
  rw [ruleLe_iff, ruleLe_iff, cmp_le_zero_iff, cmp_le_zero_iff]
  cases ha : a.is_exception <;> cases hb : b.is_exception <;> simp <;> omega

theorem ruleLe_refl (a : Rule) : ruleLe a a = true := by
  rw [ruleLe_iff, cmp_le_zero_iff]
  simp

theorem ruleLe_trans {a b c : Rule} (h1 : ruleLe a b = true) (h2 : ruleLe b c = true) :
    ruleLe a c = true := by
  rw [ruleLe_iff, cmp_le_zero_iff] at h1 h2 ⊢
  obtain ⟨h1a, h1b⟩ := h1
  obtain ⟨h2a, h2b⟩ := h2
  cases ha : a.is_exception <;> cases hb : b.is_exception <;> cases hc : c.is_exception <;>
    simp_all <;> omega

/-- Two rules tied under the comparator share exception status and label
count — which is all `tld` reads off the best rule, so the unspecified
tie-break order cannot change `tld`'s result. -/
theorem ruleLe_tie {a b : Rule} (h1 : ruleLe a b = true) (h2 : ruleLe b a = true) :
    a.is_exception = b.is_exception ∧ a.labels.length = b.labels.length := by
  rw [ruleLe_iff, cmp_le_zero_iff] at h1 h2
  obtain ⟨h1a, h1b⟩ := h1
  obtain ⟨h2a, h2b⟩ := h2
  cases ha : a.is_exception <;> cases hb : b.is_exception <;> simp_all <;> omega

theorem mem_insertSorted {y r : Rule} {l : List Rule} :
    y ∈ insertSorted r l ↔ y = r ∨ y ∈ l := by
  induction l with
  | nil => simp [insertSorted]
  | cons x xs ih =>
    unfold insertSorted
    by_cases h : ruleLe x r = true
    · rw [if_pos h]
      simp only [List.mem_cons, ih]
      tauto
    · rw [if_neg h]
      simp only [List.mem_cons]

theorem sorted_insertSorted {r : Rule} {l : List Rule} (hs : rulesSorted l) :
    rulesSorted (insertSorted r l) := by
  induction l with
  | nil => simp [insertSorted, rulesSorted]
  | cons x xs ih =>
    rcases List.pairwise_cons.mp hs with ⟨hx, hxs⟩
    unfold insertSorted
    by_cases h : ruleLe x r = true
    · rw [if_pos h]
      refine List.pairwise_cons.mpr ⟨?_, ih hxs⟩
      intro y hy
      rcases mem_insertSorted.mp hy with rfl | hmem
      · exact h
      · exact hx y hmem
    · rw [if_neg h]
      have hrx : ruleLe r x = true := by
        rcases ruleLe_total r x with h1 | h1
        · exact h1
        · exact absurd h1 h
      refine List.pairwise_cons.mpr ⟨?_, hs⟩
      intro y hy
      rcases List.mem_cons.mp hy with rfl | hmem
      · exact hrx
      · exact ruleLe_trans hrx (hx y hmem)

theorem sortRules_core_mem (l : List Rule) (acc : List Rule) (y : Rule) :
    (y ∈ l.foldl (fun a r => insertSorted r a) acc) ↔ y ∈ acc ∨ y ∈ l := by
  induction l generalizing acc with
  | nil => simp
  | cons r rs ih =>
    simp only [List.foldl_cons, ih, mem_insertSorted, List.mem_cons]
    tauto

theorem sortRules_core_sorted (l : List Rule) (acc : List Rule) (hs : rulesSorted acc) :
    rulesSorted (l.foldl (fun a r => insertSorted r a) acc) := by
  induction l generalizing acc with
  | nil => exact hs
  | cons r rs ih => exact ih _ (sorted_insertSorted hs)

theorem mem_sortRules {y : Rule} {l : List Rule} : y ∈ sortRules l ↔ y ∈ l := by
  unfold sortRules
  rw [sortRules_core_mem]
  simp

theorem sortRules_sorted (l : List Rule) : rulesSorted (sortRules l) :=
  sortRules_core_sorted l [] (by simp [rulesSorted])

theorem sortRules_head_le {l : List Rule} {r : Rule} {rest : List Rule}
    (h : sortRules l = r :: rest) : ∀ x ∈ l, ruleLe r x = true := by
  intro x hx
  have hmem : x ∈ sortRules l := mem_sortRules.mpr hx
  rw [h] at hmem
  rcases List.mem_cons.mp hmem with rfl | hmem
  · exact ruleLe_refl x
  · have hsorted := sortRules_sorted l
    rw [h] at hsorted
    exact (List.pairwise_cons.mp hsorted).1 x hmem

theorem sortRules_head_mem {l : List Rule} {r : Rule} {rest : List Rule}
    (h : sortRules l = r :: rest) : r ∈ l := by
  have hmem : r ∈ sortRules l := by
    rw [h]
    exact List.mem_cons_self _ _
  exact mem_sortRules.mp hmem

theorem sortRules_eq_nil_iff {l : List Rule} : sortRules l = [] ↔ l = [] := by
  constructor
  · intro h
    cases l with
    | nil => rfl
    | cons r rs =>
      have hmem : r ∈ sortRules (r :: rs) := mem_sortRules.mpr (by simp)
      rw [h] at hmem
      exact absurd hmem (by simp)
  · rintro rfl
    rfl

/-! ### The matching predicate -/

theorem labelsFit_take (rl : List String) (hl : List String) :
    labelsFit rl (hl.take rl.length) = labelsFit rl hl := by
  induction rl generalizing hl with
  | nil => rfl
  | cons r rs ih =>
    cases hl with
    | nil => rfl
    | cons h hs =>
      simp only [List.length_cons, List.take_succ_cons, labelsFit]
      rw [ih]

theorem labelsFit_iff {rl hl : List String} (hlen : rl.length ≤ hl.length) :
    labelsFit rl hl = true ↔
      ∀ i < rl.length, rl.getD i "" = "*" ∨ hl.getD i "" = rl.getD i "" := by
  induction rl generalizing hl with
  | nil => simp [labelsFit]
  | cons r rs ih =>
    cases hl with
    | nil => simp at hlen
    | cons h hs =>
      simp only [labelsFit, Bool.and_eq_true, Bool.or_eq_true, beq_iff_eq]
      rw [ih (by simpa using hlen)]
      constructor
      · rintro ⟨h1, h2⟩ i hi
        cases i with
        | zero => simpa using h1
        | succ j =>
          have := h2 j (by simpa using hi)
          simpa using this
      · intro hall
        refine ⟨by simpa using hall 0 (by simp), fun j hj => ?_⟩
        have := hall (j + 1) (by simpa using hj)
        simpa using this

theorem match'_some {r : Rule} {host g : String} (hn : _normalize host = some g) :
    Rule.match' r host =
      some (if r.labels.length > (splitDot g).reverse.length then false
            else labelsFit r.labels ((splitDot g).reverse)) := by
  unfold Rule.match'
  rw [hn]
  rfl

theorem match'_true_iff {r : Rule} {host g : String} (hn : _normalize host = some g) :
    Rule.match' r host = some true ↔
      r.labels.length ≤ (splitDot g).length ∧
        labelsFit r.labels ((splitDot g).reverse) = true := by
  rw [match'_some hn]
  simp only [Option.some_inj]
  by_cases h : r.labels.length > (splitDot g).reverse.length
  · rw [if_pos h]
    simp only [List.length_reverse] at h
    constructor
    · intro hfb
      simp at hfb
    · intro hc
      exact absurd hc.1 (by omega)
  · rw [if_neg h]
    simp only [List.length_reverse] at h
    constructor
    · intro hfit
      exact ⟨by omega, hfit⟩
    · intro hc
      exact hc.2

/-! ### Collected matchers and renormalization -/

theorem matchersM_mem {rules : List Rule} {g : String} {ms : List Rule}
    (h : matchersM rules g = some ms) :
    ∀ r, r ∈ ms ↔ r ∈ rules ∧ Rule.match' r g = some true := by
  induction rules generalizing ms with
  | nil =>
    have hms : ms = [] := by
      unfold matchersM at h
      cases h
      rfl
    subst hms
    simp
  | cons x rs ih =>
    unfold matchersM at h
    cases hx : Rule.match' x g with
    | none =>
      rw [hx] at h
      cases h
    | some b =>
      rw [hx] at h
      cases hrec : matchersM rs g with
      | none =>
        rw [hrec] at h
        cases h
      | some ms2 =>
        rw [hrec] at h
        have hms : ms = if b then x :: ms2 else ms2 := by
          cases h
          rfl
        subst hms
        intro r
        by_cases hb : b = true
        · subst hb
          rw [if_pos rfl]
          constructor
          · intro hmem
            rcases List.mem_cons.mp hmem with rfl | hmem2
            · exact ⟨List.mem_cons_self _ _, hx⟩
            · obtain ⟨h1, h2⟩ := (ih hrec r).mp hmem2
              exact ⟨List.mem_cons_of_mem _ h1, h2⟩
          · rintro ⟨hmem, hmatch⟩
            rcases List.mem_cons.mp hmem with rfl | hmem2
            · exact List.mem_cons_self _ _
            · exact List.mem_cons_of_mem _ ((ih hrec r).mpr ⟨hmem2, hmatch⟩)
        · have hb2 : b = false := by
            cases b
            · rfl
            · exact absurd rfl hb
          subst hb2
          rw [if_neg (by simp)]
          constructor
          · intro hmem
            obtain ⟨h1, h2⟩ := (ih hrec r).mp hmem
            exact ⟨List.mem_cons_of_mem _ h1, h2⟩
          · rintro ⟨hmem, hmatch⟩
            rcases List.mem_cons.mp hmem with rfl | hmem2
            · rw [hx] at hmatch
              exact absurd (Option.some_inj.mp hmatch) (by simp)
            · exact (ih hrec r).mpr ⟨hmem2, hmatch⟩

theorem match'_isSome {r : Rule} {g g2 : String} (hg : _normalize g = some g2) :
    (Rule.match' r g).isSome := by
  rw [match'_some hg]
  rfl

theorem matchersM_isSome {rules : List Rule} {g : String}
    (hall : ∀ r ∈ rules, (Rule.match' r g).isSome) :
    ∃ ms, matchersM rules g = some ms := by
  induction rules with
  | nil => exact ⟨[], rfl⟩
  | cons x rs ih =>
    obtain ⟨ms, hms⟩ := ih (fun r hr => hall r (List.mem_cons_of_mem _ hr))
    cases hx : Rule.match' x g with
    | none =>
      have := hall x (List.mem_cons_self _ _)
      rw [hx] at this
      exact absurd this (by simp)
    | some b =>
      refine ⟨if b then x :: ms else ms, ?_⟩
      unfold matchersM
      rw [hx, hms]
      rfl

theorem normalize_normalForm_isSome {g : String} (hg : normalForm g) (hne : g ≠ ".") :
    ∃ g2, _normalize g = some g2 := by
  by_cases hd : pyStartsWith g "." = true
  · have hh := startsDot_iff.mp hd
    cases hgd : g.data with
    | nil =>
      rw [hgd] at hh
      cases hh
    | cons c cs =>
      rw [hgd] at hh
      have hc : c = '.' := by simpa using hh
      subst hc
      rw [normalize_of_normalForm_dot hg hgd]
      have hcs : cs ≠ [] := by
        intro h0
        apply hne
        apply string_data_inj
        rw [hgd, h0, dot_data]
      rw [if_neg hcs]
      exact ⟨_, rfl⟩
  · rw [normalize_of_normalForm_nodot hg (by simpa using hd)]
    exact ⟨g, rfl⟩

theorem renorm_splitDot {g g2 : String} (hg : normalForm g) (hn : _normalize g = some g2) :
    splitDot g = splitDot g2 ∨ splitDot g = "" :: splitDot g2 := by
  by_cases hd : pyStartsWith g "." = true
  · right
    have hh := startsDot_iff.mp hd
    cases hgd : g.data with
    | nil =>
      rw [hgd] at hh
      cases hh
    | cons c cs =>
      rw [hgd] at hh
      have hc : c = '.' := by simpa using hh
      subst hc
      rw [normalize_of_normalForm_dot hg hgd] at hn
      by_cases hcs : cs = []
      · rw [if_pos hcs] at hn
        cases hn
      · rw [if_neg hcs] at hn
        have hg2 : g2 = String.mk cs := by
          cases hn
          rfl
        subst hg2
        unfold splitDot
        rw [hgd, splitDotCh_cons_dot]
        rfl
  · left
    rw [normalize_of_normalForm_nodot hg (by simpa using hd)] at hn
    cases hn
    rfl

theorem renorm_labelsR {g g2 : String} (hg : normalForm g) (hn : _normalize g = some g2) :
    (splitDot g).reverse = (splitDot g2).reverse ∨
      (splitDot g).reverse = (splitDot g2).reverse ++ [""] := by
  rcases renorm_splitDot hg hn with h | h
  · left
    rw [h]
  · right
    rw [h]
    simp

theorem renorm_length_le {g g2 : String} (hg : normalForm g) (hn : _normalize g = some g2) :
    (splitDot g2).length ≤ (splitDot g).length := by
  rcases renorm_splitDot hg hn with h | h
  · rw [h]
  · rw [h]
    simp

/-! ### Unfolding lemmas for `tld` -/

theorem tldBody_no_match {rules : List Rule} {g : String} {ms : List Rule}
    (hms : matchersM rules g = some ms) (hnil : sortRules ms = []) :
    tldBody rules g = some (pyLastLabel g) := by
  unfold tldBody
  simp only [hms, hnil]

theorem tldBody_match {rules : List Rule} {g : String} {ms : List Rule} {r : Rule}
    {rest : List Rule} (hms : matchersM rules g = some ms) (hsort : sortRules ms = r :: rest) :
    tldBody rules g = some (
      if r.is_exception then joinDot ((pyRsplit g (r.labels.length - 1)).drop 1)
      else if (splitDot g).length = r.labels.length then g
      else joinDot ((pyRsplit g r.labels.length).drop 1)) := by
  unfold tldBody
  simp only [hms, hsort]

theorem best_rule_shape {l : List Rule} {r r0 : Rule} {rest : List Rule}
    (hsort : sortRules l = r0 :: rest) (hr : r ∈ l) (hmin : ∀ x ∈ l, ruleLe r x = true) :
    r0.is_exception = r.is_exception ∧ r0.labels.length = r.labels.length := by
  have h1 : ruleLe r0 r = true := sortRules_head_le hsort r hr
  have h2 : ruleLe r r0 = true := hmin r0 (sortRules_head_mem hsort)
  exact ruleLe_tie h1 h2

theorem splitDot_length_pos (s : String) : 1 ≤ (splitDot s).length :=
  List.length_pos.mpr (splitDot_ne_nil s)

/-- Case analysis of `tld`'s value through the best (sorted-first) rule. -/
theorem tldBody_best {rules : List Rule} {g g2 : String} {ms : List Rule} {r0 : Rule}
    {rest : List Rule} (hg : normalForm g) (hg2 : _normalize g = some g2)
    (hms : matchersM rules g = some ms) (hsort : sortRules ms = r0 :: rest) :
    (r0.is_exception = true → tldBody rules g = some (lastLabels (r0.labels.length - 1) g))
    ∧ (r0.is_exception = false → (splitDot g).length = r0.labels.length →
        tldBody rules g = some g)
    ∧ (r0.is_exception = false → (splitDot g).length ≠ r0.labels.length →
        tldBody rules g = some (lastLabels r0.labels.length g)) := by
  have hr0 : r0 ∈ ms := sortRules_head_mem hsort
  have hmt : Rule.match' r0 g = some true := ((matchersM_mem hms r0).mp hr0).2
  have hlen : r0.labels.length ≤ (splitDot g2).length := ((match'_true_iff hg2).mp hmt).1
  have hk2 : (splitDot g2).length ≤ (splitDot g).length := renorm_length_le hg hg2
  have hk1 : 1 ≤ (splitDot g).length := splitDot_length_pos g
  refine ⟨?_, ?_, ?_⟩
  · intro hexc
    rw [tldBody_match hms hsort, if_pos hexc]
    rw [rsplit_join_eq_lastLabels (by omega)]
  · intro hexc hkn
    rw [tldBody_match hms hsort, if_neg (by simp [hexc]), if_pos hkn]
  · intro hexc hkn
    rw [tldBody_match hms hsort, if_neg (by simp [hexc]), if_neg hkn]
    rw [rsplit_join_eq_lastLabels (by omega)]

/-- For `1 ≤ m < k`, the last `m` labels are a proper dot-suffix of the
string. -/
theorem lastLabels_suffix {s : String} {m : Nat} (h1 : 1 ≤ m) (h2 : m < (splitDot s).length) :
    s.data = (joinDot ((splitDot s).take ((splitDot s).length - m))).data
      ++ '.' :: (lastLabels m s).data := by
  have hA : (splitDot s).take ((splitDot s).length - m) ≠ [] := by
    intro h0
    rcases List.take_eq_nil_iff.mp h0 with h3 | h3
    · omega
    · exact splitDot_ne_nil s h3
  have hB : (splitDot s).drop ((splitDot s).length - m) ≠ [] := by
    intro h0
    have := List.drop_eq_nil_iff.mp h0
    omega
  have key := joinDot_append _ _ hA hB
  calc s.data = (joinDot (splitDot s)).data := by rw [joinDot_splitDot]
    _ = (joinDot ((splitDot s).take ((splitDot s).length - m)
          ++ (splitDot s).drop ((splitDot s).length - m))).data := by
        rw [List.take_append_drop]
    _ = _ := key

theorem lastLabels_length_lt {s : String} {m : Nat} (h1 : 1 ≤ m)
    (h2 : m < (splitDot s).length) : (lastLabels m s).data.length < s.data.length := by
  have := lastLabels_suffix h1 h2
  have hlen := congrArg List.length this
  simp only [List.length_append, List.length_cons] at hlen
  omega

theorem lastLabels_ne_self {s : String} {m : Nat} (h1 : 1 ≤ m)
    (h2 : m < (splitDot s).length) : lastLabels m s ≠ s := by
  intro h0
  have := lastLabels_length_lt h1 h2
  rw [h0] at this
  omega

theorem splitDot_lastLabels {s : String} {m : Nat} (h1 : 1 ≤ m)
    (h2 : m ≤ (splitDot s).length) :
    splitDot (lastLabels m s) = (splitDot s).drop ((splitDot s).length - m) := by
  unfold lastLabels
  apply splitDot_joinDot
  · intro h0
    have := List.drop_eq_nil_iff.mp h0
    omega
  · intro l hl
    exact noDot_splitDot s l (List.mem_of_mem_drop hl)

/-! ### Failure characterization of `_normalize` -/

theorem firstToken_none_iff (s : String) :
    firstToken s = none ↔ ∀ c ∈ s.data, pyIsSpace c = true := by
  unfold firstToken
  cases hdw : s.data.dropWhile pyIsSpace with
  | nil =>
    simp only [true_iff]
    exact fun c hc => List.dropWhile_eq_nil_iff.mp hdw c hc
  | cons c cs =>
    have hcm : c ∈ s.data := by
      have hsub := List.dropWhile_sublist (l := s.data) (p := pyIsSpace)
      exact hsub.subset (by rw [hdw]; exact List.mem_cons_self _ _)
    have hcf : pyIsSpace c = false := dropWhile_head_false hdw
    constructor
    · intro h
      exact absurd h (by simp)
    · intro h
      rw [h c hcm] at hcf
      cases hcf

theorem normalize_none_iff (s : String) :
    _normalize s = none ↔
      ∀ c ∈ (if pyStartsWith s "." then pyTail s else s).data, pyIsSpace c = true := by
  unfold _normalize
  rw [← firstToken_none_iff]
  cases hft : firstToken (if pyStartsWith s "." then pyTail s else s) <;> simp

/-- C4: the comparator sorts every exception rule strictly before every
non-exception rule regardless of label counts; among rules of equal
exception status, strictly more labels sorts strictly first; equal status
and equal label count compare as equal. -/
theorem C4_comparator_specificity (a b : Rule) :
    (a.is_exception = true → b.is_exception = false → Rule.cmp a b < 0)
    ∧ (a.is_exception = b.is_exception → b.labels.length < a.labels.length →
        Rule.cmp a b < 0)
    ∧ (a.is_exception = b.is_exception → a.labels.length = b.labels.length →
        Rule.cmp a b = 0) := by
  refine ⟨?_, ?_, ?_⟩
  · intro h1 h2
    rw [cmp_lt_zero_iff]
    exact Or.inl ⟨h1, h2⟩
  · intro h1 h2
    rw [cmp_lt_zero_iff]
    exact Or.inr ⟨h1, h2⟩
  · intro h1 h2
    rw [cmp_eq_zero_iff]
    exact ⟨h1, h2⟩

theorem C4_witness :
    Rule.cmp { is_exception := true, labels := ["uk", "parliament"], s := "parliament.uk" }
        { is_exception := false, labels := ["com", "x", "y"], s := "y.x.com" } < 0
    ∧ Rule.cmp { is_exception := false, labels := ["uk", "co"], s := "co.uk" }
        { is_exception := false, labels := ["com"], s := "com" } < 0
    ∧ Rule.cmp { is_exception := false, labels := ["com"], s := "com" }
        { is_exception := false, labels := ["net"], s := "net" } = 0 :=
  ⟨(C4_comparator_specificity _ _).1 rfl rfl,
   (C4_comparator_specificity _ _).2.1 rfl (by decide),
   (C4_comparator_specificity _ _).2.2 rfl rfl⟩

/-- C2: for every rule and host whose normalization succeeds, `Rule.match`
returns true iff the rule's label count is at most the host's and every
rule label (from the rightmost DNS label) is the wildcard or equals the
host label at the same index; host labels beyond the rule's length are
irrelevant. -/
theorem C2_match_characterization (r : Rule) (host h : String)
    (hn : _normalize host = some h) :
    Rule.match' r host = some true ↔
      (r.labels.length ≤ (splitDot h).length ∧
        ∀ i < r.labels.length,
          r.labels.getD i "" = "*" ∨ ((splitDot h).reverse).getD i "" = r.labels.getD i "") := by
  rw [match'_true_iff hn]
  constructor
  · rintro ⟨h1, h2⟩
    exact ⟨h1, (labelsFit_iff (by simpa using h1)).mp h2⟩
  · rintro ⟨h1, h2⟩
    exact ⟨h1, (labelsFit_iff (by simpa using h1)).mpr h2⟩

theorem C2_witness :
    Rule.match' { is_exception := false, labels := ["uk", "*"], s := "*.uk" }
      "www.bbc.co.uk" = some true :=
  (C2_match_characterization { is_exception := false, labels := ["uk", "*"], s := "*.uk" }
    "www.bbc.co.uk" "www.bbc.co.uk" rfl).mpr (by decide)

/-- C7 counterexample: the empty pattern, a bare '!', and a bare '.' are
all well-formed text (no UTF-8 failure is possible for text), yet `Rule`
construction fails on each of them — refuting "fails only when the input
is not valid UTF-8 text".  No input yields an empty normalized pattern. -/
theorem C7_counterexample :
    Rule.make "" = none ∧ Rule.make "!" = none ∧ Rule.make "." = none ∧
      Rule.make " " = none :=
  ⟨rfl, rfl, rfl, rfl⟩

/-- C7 (amended): `Rule` construction fails exactly when the pattern left
after removing a leading '!' and one optional leading '.' is empty or
whitespace-only (Python's `split()[0]` raises IndexError there); for every
other pattern it succeeds.  Normalization never returns an empty string,
so a constructed Rule always has non-empty pattern text and a non-empty
label tuple — the spec's "empty pattern yields a single empty label" case
is unreachable. -/
theorem C7_rule_construction (p : String) :
    (Rule.make p = none ↔ ∀ c ∈ (effectivePattern p).data, pyIsSpace c = true)
    ∧ ∀ r, Rule.make p = some r → r.s ≠ "" ∧ r.labels ≠ [] := by
  constructor
  · unfold Rule.make effectivePattern
    rw [← normalize_none_iff]
    cases hn : _normalize (if pyStartsWith p "!" then pyTail p else p) <;> simp [hn]
  · intro r hr
    unfold Rule.make at hr
    cases hn : _normalize (if pyStartsWith p "!" then pyTail p else p) with
    | none =>
      rw [hn] at hr
      cases hr
    | some t =>
      rw [hn] at hr
      cases hr
      have hnf := normalize_normalForm hn
      constructor
      · intro h0
        exact hnf.1 (by rw [show t = "" from h0])
      · show (splitDot t).reverse ≠ []
        simp only [ne_eq, List.reverse_eq_nil_iff]
        exact splitDot_ne_nil t

theorem C7_witness :
    Rule.make "!" = none ∧
      ("parliament.uk" : String) ≠ "" ∧ (["uk", "parliament"] : List String) ≠ [] :=
  ⟨(C7_rule_construction "!").1.mpr (by decide),
   (C7_rule_construction "!parliament.uk").2
     { is_exception := true, labels := ["uk", "parliament"], s := "parliament.uk" } rfl⟩

/-- C3 (code bug): with the rule set built from ['com'] and host 'com',
`domain` is absent (the host is its own public suffix), yet `iter_parents`
compares the unicode host to None with `!=` — always true in Python 2 —
and then crashes with IndexError on `'com'.split('.', 1)[1]`.  So
`parents`/`parent` raise instead of yielding the empty sequence the claim
requires.  (`tld`('..') similarly raises IndexError inside `Rule.match`.) -/
theorem C3_parents_crash :
    Rule.make "com" = some { is_exception := false, labels := ["com"], s := "com" }
    ∧ SuffixList.domain [{ is_exception := false, labels := ["com"], s := "com" }] "com"
        = some none
    ∧ SuffixList.iterParents [{ is_exception := false, labels := ["com"], s := "com" }] "com"
        = some ([], false)
    ∧ SuffixList.parents [{ is_exception := false, labels := ["com"], s := "com" }] "com"
        = none
    ∧ SuffixList.parent [{ is_exception := false, labels := ["com"], s := "com" }] "com"
        = none
    ∧ SuffixList.tld [{ is_exception := false, labels := ["com"], s := "com" }] ".." = none :=
  ⟨rfl, rfl, rfl, rfl, rfl, rfl⟩

theorem push_keep {acc : SuffixList} {s : String} {r : Rule} (hk : keepLine s = true)
    (hr : Rule.make s = some r) : SuffixList.push acc s = some (acc ++ [r]) := by
  unfold SuffixList.push SuffixList.insert
  rw [if_pos hk, hr]
  show some (acc.take acc.length ++ r :: acc.drop acc.length) = _
  rw [List.take_length, List.drop_length]

theorem push_fail {acc : SuffixList} {s : String} (hk : keepLine s = true)
    (hr : Rule.make s = none) : SuffixList.push acc s = none := by
  unfold SuffixList.push SuffixList.insert
  rw [if_pos hk, hr]
  rfl

theorem push_skip {acc : SuffixList} {s : String} (hk : keepLine s = false) :
    SuffixList.push acc s = some acc := by
  unfold SuffixList.push SuffixList.insert
  rw [if_neg (by simp [hk])]

theorem fromLines_core (lines : List String) (acc : SuffixList) :
    lines.foldlM (fun rs s => SuffixList.push rs s) acc
      = (parseLines (lines.filter keepLine)).map fun rs => acc ++ rs := by
  induction lines generalizing acc with
  | nil => simp [parseLines]
  | cons s rest ih =>
    rw [List.foldlM_cons]
    by_cases hk : keepLine s = true
    · rw [List.filter_cons_of_pos hk]
      unfold parseLines
      cases hr : Rule.make s with
      | none =>
        rw [push_fail hk hr]
        rfl
      | some r =>
        rw [push_keep hk hr]
        show List.foldlM (fun rs s => SuffixList.push rs s) (acc ++ [r]) rest = _
        rw [ih]
        cases hm : parseLines (rest.filter keepLine) with
        | none => rfl
        | some rs => simp
    · rw [List.filter_cons_of_neg hk, push_skip (by simpa using hk)]
      show List.foldlM (fun rs s => SuffixList.push rs s) acc rest = _
      exact ih acc

/-- C9: a rule set built from a line sequence (by `__init__`/`append`, or
line by line through `insert`) holds exactly the successfully parsed rules
of the kept lines: blank lines and '//' comment lines are never
materialized, every materialized element comes from a successful `Rule`
parse, and a parse failure on any kept line propagates instead of being
skipped. -/
theorem C9_construction_invariant :
    (∀ lines : List String,
      SuffixList.fromLines lines = parseLines (lines.filter keepLine))
    ∧ (∀ (rs : SuffixList) (i : Nat) (s : String) (rs2 : SuffixList),
        SuffixList.insert rs i s = some rs2 →
          ∀ r ∈ rs2, r ∈ rs ∨ (keepLine s = true ∧ Rule.make s = some r))
    ∧ (∀ (rs : SuffixList) (i : Nat) (s : String),
        keepLine s = true → Rule.make s = none → SuffixList.insert rs i s = none) := by
  refine ⟨?_, ?_, ?_⟩
  · intro lines
    unfold SuffixList.fromLines
    rw [fromLines_core]
    cases hm : parseLines (lines.filter keepLine) with
    | none => rfl
    | some rs => simp
  · intro rs i s rs2 hins r hmem
    unfold SuffixList.insert at hins
    by_cases hk : keepLine s = true
    · rw [if_pos hk] at hins
      cases hr : Rule.make s with
      | none =>
        rw [hr] at hins
        cases hins
      | some r2 =>
        rw [hr] at hins
        have h2 : rs2 = rs.take i ++ r2 :: rs.drop i := by
          cases hins
          rfl
        subst h2
        rcases List.mem_append.mp hmem with h3 | h3
        · exact Or.inl (List.mem_of_mem_take h3)
        · rcases List.mem_cons.mp h3 with h5 | h4
          · subst h5
            exact Or.inr ⟨hk, rfl⟩
          · exact Or.inl (List.mem_of_mem_drop h4)
    · rw [if_neg hk] at hins
      cases hins
      exact Or.inl hmem
  · intro rs i s hk hr
    unfold SuffixList.insert
    rw [if_pos hk, hr]
    rfl

theorem C9_witness :
    SuffixList.fromLines ["com", "", "// comment", "!parliament.uk"]
        = some [{ is_exception := false, labels := ["com"], s := "com" },
                { is_exception := true, labels := ["uk", "parliament"], s := "parliament.uk" }]
    ∧ SuffixList.fromLines ["com", "!"] = none
    ∧ SuffixList.insert [] 0 "!" = none := by
  refine ⟨?_, ?_, ?_⟩
  · rw [C9_construction_invariant.1 ["com", "", "// comment", "!parliament.uk"]]
    rfl
  · rw [C9_construction_invariant.1 ["com", "!"]]
    rfl
  · exact C9_construction_invariant.2.2 [] 0 "!" rfl rfl

theorem tld_norm {rules : SuffixList} {host g : String} (hn : _normalize host = some g) :
    SuffixList.tld rules host = tldBody rules g := by
  unfold SuffixList.tld
  simp only [hn]

theorem matchersM_of_all_false {rules : List Rule} {g : String}
    (hall : ∀ r ∈ rules, Rule.match' r g = some false) : matchersM rules g = some [] := by
  induction rules with
  | nil => rfl
  | cons x rs ih =>
    unfold matchersM
    rw [hall x (List.mem_cons_self _ _), ih (fun r hr => hall r (List.mem_cons_of_mem _ hr))]
    rfl

theorem match'_some_inv {r : Rule} {host : String} {b : Bool}
    (h : Rule.match' r host = some b) : ∃ g2, _normalize host = some g2 := by
  unfold Rule.match' at h
  cases hn : _normalize host with
  | none =>
    rw [hn] at h
    cases h
  | some g2 => exact ⟨g2, rfl⟩

/-- C1 counterexample: hostName '..' normalizes successfully (to '.'),
but with the non-empty rule set built from ['com'], `tld('..')` raises
IndexError inside `Rule.match` (re-normalizing '.' fails), so it does not
return the fallback last label the claimed algorithm requires. -/
theorem C1_counterexample :
    _normalize ".." = some "." ∧
    Rule.make "com" = some { is_exception := false, labels := ["com"], s := "com" } ∧
    SuffixList.tld [{ is_exception := false, labels := ["com"], s := "com" }] ".." = none :=
  ⟨rfl, rfl, rfl⟩

/-- C1 (amended): for every rule set and host whose normalization succeeds
with a normalized host other than '.', `tld` follows the claimed
algorithm: if no rule matches, the host's last dot-separated label;
otherwise, with any most-specific matching rule having n labels — all tied
best rules agree on exception status and n — the last n-1 labels for an
exception rule, the whole normalized host when it has exactly n labels,
and the last n labels otherwise, each joined by '.'. -/
theorem C1_tld_algorithm (rules : SuffixList) (host h : String)
    (hn : _normalize host = some h) (hne : h ≠ ".") :
    (∃ t, SuffixList.tld rules host = some t)
    ∧ ((∀ r ∈ rules, Rule.match' r h = some false) →
      SuffixList.tld rules host = some ((splitDot h).getLastD ""))
    ∧ (∀ r, r ∈ rules → Rule.match' r h = some true →
        (∀ x ∈ rules, Rule.match' x h = some true → ruleLe r x = true) →
        SuffixList.tld rules host = some (
          if r.is_exception then lastLabels (r.labels.length - 1) h
          else if (splitDot h).length = r.labels.length then h
          else lastLabels r.labels.length h)) := by
  have hnf : normalForm h := normalize_normalForm hn
  refine ⟨?_, ?_, ?_⟩
  · obtain ⟨g2, hg2⟩ := normalize_normalForm_isSome hnf hne
    obtain ⟨ms, hms⟩ := matchersM_isSome (fun x _ => match'_isSome (r := x) hg2)
    rw [tld_norm hn]
    cases hsort : sortRules ms with
    | nil => exact ⟨_, tldBody_no_match hms hsort⟩
    | cons r0 rest => exact ⟨_, tldBody_match hms hsort⟩
  · intro hall
    rw [tld_norm hn, tldBody_no_match (matchersM_of_all_false hall) rfl, pyLastLabel_eq]
  · intro r hrmem hrmatch hmin
    obtain ⟨g2, hg2⟩ := match'_some_inv hrmatch
    obtain ⟨ms, hms⟩ := matchersM_isSome (fun x _ => match'_isSome (r := x) hg2)
    have hrms : r ∈ ms := (matchersM_mem hms r).mpr ⟨hrmem, hrmatch⟩
    cases hsort : sortRules ms with
    | nil =>
      rw [sortRules_eq_nil_iff.mp hsort] at hrms
      exact absurd hrms (by simp)
    | cons r0 rest =>
      have hshape := best_rule_shape hsort hrms
        (fun x hx => hmin x ((matchersM_mem hms x).mp hx).1 ((matchersM_mem hms x).mp hx).2)
      obtain ⟨hse, hsl⟩ := hshape
      have hbest := tldBody_best hnf hg2 hms hsort
      rw [tld_norm hn]
      by_cases hexc : r.is_exception = true
      · rw [if_pos hexc, hbest.1 (by rw [hse, hexc]), hsl]
      · have hexc2 : r.is_exception = false := by
          cases hre : r.is_exception
          · rfl
          · exact absurd hre hexc
        rw [if_neg hexc]
        by_cases hkn : (splitDot h).length = r.labels.length
        · rw [if_pos hkn, hbest.2.1 (by rw [hse, hexc2]) (by rw [hsl, ← hkn])]
        · rw [if_neg hkn, hbest.2.2 (by rw [hse, hexc2]) (by rw [hsl]; exact hkn), hsl]

theorem C1_witness :
    SuffixList.tld [{ is_exception := false, labels := ["com"], s := "com" }]
      "www.example.com" = some "com" := by
  have h := (C1_tld_algorithm [{ is_exception := false, labels := ["com"], s := "com" }]
      "www.example.com" "www.example.com" rfl (by decide)).2.2
      { is_exception := false, labels := ["com"], s := "com" }
      (by simp) (by decide) (by decide)
  exact h.trans (by decide)

/-! ### Suffix structure of `tld` and `domain` values -/

theorem string_length (s : String) : s.length = s.data.length := rfl

theorem lastLabels_zero (s : String) : lastLabels 0 s = "" := by
  unfold lastLabels
  rw [Nat.sub_zero, List.drop_length]
  rfl

theorem pyLastLabel_eq_lastLabels (s : String) : pyLastLabel s = lastLabels 1 s := by
  rw [pyLastLabel_eq]
  unfold lastLabels
  rcases List.eq_nil_or_concat (splitDot s) with hnil | ⟨L, b, hLb⟩
  · exact absurd hnil (splitDot_ne_nil s)
  · rw [List.concat_eq_append] at hLb
    rw [hLb]
    have hdrop : (L ++ [b]).drop ((L ++ [b]).length - 1) = [b] := by simp
    rw [hdrop]
    simp [List.getLastD_concat]
    rfl

theorem tld_some_inv {rules : SuffixList} {x t : String}
    (h : SuffixList.tld rules x = some t) :
    ∃ g, _normalize x = some g ∧ tldBody rules g = some t := by
  unfold SuffixList.tld at h
  cases hn : _normalize x with
  | none =>
    rw [hn] at h
    cases h
  | some g =>
    rw [hn] at h
    exact ⟨g, rfl, h⟩

theorem renorm_data {g g2 : String} (hg : normalForm g) (hn : _normalize g = some g2) :
    g2 = g ∨ g.data = '.' :: g2.data := by
  by_cases hd : pyStartsWith g "." = true
  · right
    have hh := startsDot_iff.mp hd
    cases hgd : g.data with
    | nil =>
      rw [hgd] at hh
      cases hh
    | cons c cs =>
      rw [hgd] at hh
      have hc : c = '.' := by simpa using hh
      subst hc
      rw [normalize_of_normalForm_dot hg hgd] at hn
      by_cases hcs : cs = []
      · rw [if_pos hcs] at hn
        cases hn
      · rw [if_neg hcs] at hn
        have hg2 : g2 = String.mk cs := by
          cases hn
          rfl
        rw [hg2]
  · left
    rw [normalize_of_normalForm_nodot hg (by simpa using hd)] at hn
    cases hn
    rfl

/-- If `tld`'s body returns a non-empty suffix, that suffix is the whole
normalized host or a proper dot-suffix of it. -/
theorem tldBody_suffix {rules : List Rule} {g t : String} (hg : normalForm g)
    (ht : tldBody rules g = some t) (htne : t ≠ "") :
    g = t ∨ ∃ q, g.data = q ++ '.' :: t.data := by
  cases hms : matchersM rules g with
  | none =>
    unfold tldBody at ht
    rw [hms] at ht
    cases ht
  | some ms =>
    cases hsort : sortRules ms with
    | nil =>
      rw [tldBody_no_match hms hsort] at ht
      have ht2 : t = lastLabels 1 g := by
        rw [← pyLastLabel_eq_lastLabels]
        cases ht
        rfl
      by_cases hk : (splitDot g).length = 1
      · left
        rw [ht2]
        unfold lastLabels
        rw [hk]
        have : (splitDot g).drop 0 = splitDot g := List.drop_zero _
        rw [Nat.sub_self, this, joinDot_splitDot]
      · right
        rw [ht2]
        exact ⟨_, lastLabels_suffix (by omega) (by have := splitDot_length_pos g; omega)⟩
    | cons r0 rest =>
      have hr0 : r0 ∈ ms := sortRules_head_mem hsort
      have hmt : Rule.match' r0 g = some true := ((matchersM_mem hms r0).mp hr0).2
      obtain ⟨g2, hg2⟩ := match'_some_inv hmt
      have hlen : r0.labels.length ≤ (splitDot g2).length := ((match'_true_iff hg2).mp hmt).1
      have hk2 : (splitDot g2).length ≤ (splitDot g).length := renorm_length_le hg hg2
      have hk1 : 1 ≤ (splitDot g).length := splitDot_length_pos g
      have hbest := tldBody_best hg hg2 hms hsort
      cases hexc : r0.is_exception with
      | true =>
        rw [hbest.1 hexc] at ht
        have ht2 : t = lastLabels (r0.labels.length - 1) g := by
          cases ht
          rfl
        by_cases hm0 : r0.labels.length - 1 = 0
        · rw [ht2, hm0, lastLabels_zero] at htne
          exact absurd rfl htne
        · right
          rw [ht2]
          exact ⟨_, lastLabels_suffix (by omega) (by omega)⟩
      | false =>
        by_cases hkn : (splitDot g).length = r0.labels.length
        · left
          rw [hbest.2.1 hexc hkn] at ht
          cases ht
          rfl
        · rw [hbest.2.2 hexc hkn] at ht
          have ht2 : t = lastLabels r0.labels.length g := by
            cases ht
            rfl
          by_cases hm0 : r0.labels.length = 0
          · rw [ht2, hm0, lastLabels_zero] at htne
            exact absurd rfl htne
          · right
            rw [ht2]
            exact ⟨_, lastLabels_suffix (by omega) (by omega)⟩

/-- Lift a dot-suffix of the re-normalized host to the host itself. -/
theorem tld_suffix_of_host {rules : SuffixList} {h t : String} (hh : normalForm h)
    (ht : SuffixList.tld rules h = some t) (htne : t ≠ "") :
    h = t ∨ ∃ q, h.data = q ++ '.' :: t.data := by
  obtain ⟨g, hg, hbody⟩ := tld_some_inv ht
  have hgn : normalForm g := normalize_normalForm hg
  rcases renorm_data hh hg with hgh | hgh
  · rw [← hgh]
    exact tldBody_suffix hgn hbody htne
  · rcases tldBody_suffix hgn hbody htne with h1 | ⟨q, h2⟩
    · right
      exact ⟨[], by rw [hgh, h1]; rfl⟩
    · right
      exact ⟨'.' :: q, by rw [hgh, h2]; rfl⟩

theorem domain_some {rules : SuffixList} {host h t : String} (hn : _normalize host = some h)
    (ht : SuffixList.tld rules h = some t) (hne : h ≠ t) :
    SuffixList.domain rules host
      = some (some (pyLastLabel (pyDropRight h (t.length + 1)) ++ "." ++ t)) := by
  unfold SuffixList.domain
  simp only [hn, ht]
  rw [if_pos hne]

theorem domain_absent {rules : SuffixList} {host h t : String} (hn : _normalize host = some h)
    (ht : SuffixList.tld rules h = some t) (he : h = t) :
    SuffixList.domain rules host = some none := by
  unfold SuffixList.domain
  simp only [hn, ht]
  rw [if_neg (by simp [he])]

theorem domain_some_inv {rules : SuffixList} {host h d : String}
    (hn : _normalize host = some h)
    (hd : SuffixList.domain rules host = some (some d)) :
    ∃ t, SuffixList.tld rules h = some t ∧ h ≠ t ∧
      d = pyLastLabel (pyDropRight h (t.length + 1)) ++ "." ++ t := by
  unfold SuffixList.domain at hd
  simp only [hn] at hd
  cases ht : SuffixList.tld rules h with
  | none =>
    rw [ht] at hd
    cases hd
  | some t =>
    rw [ht] at hd
    have hd2 : some (if h ≠ t then
        some (pyLastLabel (pyDropRight h (t.length + 1)) ++ "." ++ t) else none)
        = some (some d) := hd
    by_cases hne : h ≠ t
    · rw [if_pos hne] at hd2
      exact ⟨t, rfl, hne, (Option.some_inj.mp (Option.some_inj.mp hd2)).symm⟩
    · rw [if_neg hne] at hd2
      simp at hd2

theorem pyDropRight_suffix {h : String} {q : List Char} {t : String}
    (hd : h.data = q ++ '.' :: t.data) : pyDropRight h (t.length + 1) = String.mk q := by
  unfold pyDropRight
  rw [hd]
  have hlen : (q ++ '.' :: t.data).length - (t.length + 1) = q.length := by
    rw [string_length]
    simp
  rw [hlen, List.take_left]

theorem data_append3 (x t : String) : (x ++ "." ++ t).data = x.data ++ '.' :: t.data := by
  rw [String.data_append, String.data_append, List.append_assoc]
  rfl

/-- The registrable-domain value built from any dot-suffix `t` of the host
is itself the host or a dot-suffix of the host. -/
theorem domain_value_suffix {h t : String} {q : List Char}
    (hsuf : h.data = q ++ '.' :: t.data) :
    h = pyLastLabel (pyDropRight h (t.length + 1)) ++ "." ++ t
      ∨ ∃ q2, h.data = q2 ++ '.'
          :: (pyLastLabel (pyDropRight h (t.length + 1)) ++ "." ++ t).data := by
  rw [pyDropRight_suffix hsuf, pyLastLabel_eq]
  rcases List.eq_nil_or_concat (splitDot (String.mk q)) with hnil | ⟨L, x, hLx⟩
  · exact absurd hnil (splitDot_ne_nil _)
  · rw [List.concat_eq_append] at hLx
    rw [hLx, List.getLastD_concat]
    have hjq : joinDot (L ++ [x]) = String.mk q := by
      have h3 := joinDot_splitDot (String.mk q)
      rw [hLx] at h3
      exact h3
    cases L with
    | nil =>
      left
      have hxq : x.data = q := by
        have h4 := congrArg String.data hjq
        simpa [data_joinDot, joinDotCh] using h4
      apply string_data_inj
      rw [hsuf, data_append3, hxq]
    | cons l0 L0 =>
      right
      have hqd : q = (joinDot (l0 :: L0)).data ++ '.' :: x.data := by
        have h4 := congrArg String.data hjq
        rw [joinDot_append (l0 :: L0) [x] (by simp) (by simp)] at h4
        exact h4.symm
      refine ⟨(joinDot (l0 :: L0)).data, ?_⟩
      rw [hsuf, hqd, data_append3]
      simp

/-- C10 counterexample: with the single exception rule '!com', tld('com')
is the empty string — neither equal to the normalized host 'com' nor a
dot-suffix of it — and domain('co.com') = 'co.', which the host neither
equals nor ends with ('.co.'). -/
theorem C10_counterexample :
    Rule.make "!com" = some { is_exception := true, labels := ["com"], s := "com" }
    ∧ SuffixList.tld [{ is_exception := true, labels := ["com"], s := "com" }] "com" = some ""
    ∧ ("com" : String) ≠ ""
    ∧ ¬ (∃ q, ("com" : String).data = q ++ '.' :: ("" : String).data)
    ∧ SuffixList.domain [{ is_exception := true, labels := ["com"], s := "com" }] "co.com"
        = some (some "co.")
    ∧ ("co.com" : String) ≠ "co."
    ∧ ¬ (∃ q, ("co.com" : String).data = q ++ '.' :: ("co." : String).data) := by
  refine ⟨rfl, rfl, by decide, ?_, rfl, by decide, ?_⟩
  · rintro ⟨q, hq⟩
    have h1 : ("com" : String).data.getLast? = some 'm' := rfl
    rw [hq] at h1
    rw [show ('.' : Char) :: ("" : String).data = [('.' : Char)] from rfl,
      List.getLast?_concat] at h1
    simp at h1
  · rintro ⟨q, hq⟩
    have h1 : ("co.com" : String).data.getLast? = some 'm' := rfl
    rw [hq] at h1
    rw [show ('.' : Char) :: ("co." : String).data
        = [('.' : Char), 'c', 'o'] ++ [('.' : Char)] from rfl,
      ← List.append_assoc, List.getLast?_concat] at h1
    simp at h1

/-- C10 (amended): whenever `tld` succeeds with a non-empty suffix, that
suffix is the normalized host itself or a trailing dot-suffix of it; and
whenever the registrable domain is present while the internally computed
suffix is non-empty, the domain likewise equals the host or is one of its
trailing dot-suffixes.  (A one-label exception rule yields the empty
suffix, for which both parts fail — see the counterexample.) -/
theorem C10_suffix_invariant (rules : SuffixList) (host h : String)
    (hn : _normalize host = some h) :
    (∀ t, SuffixList.tld rules host = some t → t ≠ "" →
      (h = t ∨ ∃ q, h.data = q ++ '.' :: t.data))
    ∧ (∀ t d, SuffixList.tld rules h = some t → t ≠ "" →
        SuffixList.domain rules host = some (some d) →
        (h = d ∨ ∃ q, h.data = q ++ '.' :: d.data)) := by
  have hnf : normalForm h := normalize_normalForm hn
  constructor
  · intro t ht htne
    rw [tld_norm hn] at ht
    exact tldBody_suffix hnf ht htne
  · intro t d ht htne hd
    obtain ⟨t0, ht0, hne0, hd0⟩ := domain_some_inv hn hd
    have htt : t0 = t := by
      rw [ht0] at ht
      exact Option.some_inj.mp ht
    subst htt
    rcases tld_suffix_of_host hnf ht0 htne with h1 | ⟨q, h2⟩
    · exact absurd h1 hne0
    · rcases domain_value_suffix h2 with h3 | h3
      · left
        rw [hd0]
        exact h3
      · right
        rw [hd0]
        exact h3

theorem C10_witness :
    ("www.example.com" : String) = "com"
      ∨ ∃ q, ("www.example.com" : String).data = q ++ '.' :: ("com" : String).data :=
  (C10_suffix_invariant [{ is_exception := false, labels := ["com"], s := "com" }]
    "www.example.com" "www.example.com" rfl).1 "com" rfl (by decide)

/-- C5 counterexample: for hostName '...x' (normalized host '..x', which
begins with '.') and the single rule '*.x', tld(hostName) = '.x', and the
claim then predicts domain = '' + '.' + '.x' = '..x'; the code instead
computes its suffix from the re-normalized host and returns '.x'. -/
theorem C5_counterexample :
    Rule.make "*.x" = some { is_exception := false, labels := ["x", "*"], s := "*.x" }
    ∧ _normalize "...x" = some "..x"
    ∧ SuffixList.tld [{ is_exception := false, labels := ["x", "*"], s := "*.x" }] "...x"
        = some ".x"
    ∧ SuffixList.domain [{ is_exception := false, labels := ["x", "*"], s := "*.x" }] "...x"
        = some (some ".x")
    ∧ pyLastLabel (pyDropRight "..x" ((".x" : String).length + 1)) ++ "." ++ ".x" = "..x"
    ∧ (".x" : String) ≠ "..x" :=
  ⟨rfl, rfl, rfl, rfl, rfl, by decide⟩

/-- C5 (amended): with the suffix `t` computed as the code does — `tld`
applied to the *normalized* host `h` (re-normalizing it) — `domain` is
absent exactly when `h = t`, and otherwise equals the label immediately to
the left of the suffix boundary in `h` (the last dot-separated label of
`h` with its final `len(t)+1` characters removed), joined by '.' to `t`. -/
theorem C5_domain_characterization (rules : SuffixList) (host h t : String)
    (hn : _normalize host = some h) (ht : SuffixList.tld rules h = some t) :
    (SuffixList.domain rules host = some none ↔ h = t)
    ∧ (h ≠ t → SuffixList.domain rules host
        = some (some (pyLastLabel (pyDropRight h (t.length + 1)) ++ "." ++ t))) := by
  constructor
  · constructor
    · intro hd
      by_contra hne
      rw [domain_some hn ht hne] at hd
      simp at hd
    · intro he
      exact domain_absent hn ht he
  · intro hne
    exact domain_some hn ht hne

theorem C5_witness :
    SuffixList.domain [{ is_exception := false, labels := ["com"], s := "com" }]
      "www.example.com" = some (some "example.com")
    ∧ SuffixList.domain [{ is_exception := false, labels := ["com"], s := "com" }]
      ".com" = some none := by
  constructor
  · have h := (C5_domain_characterization
      [{ is_exception := false, labels := ["com"], s := "com" }]
      "www.example.com" "www.example.com" "com" rfl rfl).2 (by decide)
    exact h.trans (by decide)
  · exact (C5_domain_characterization
      [{ is_exception := false, labels := ["com"], s := "com" }]
      ".com" "com" "com" rfl rfl).1.mpr rfl

/-! ### The iter_parents loop -/

theorem loopYield_succ (f : Nat) (dom : Option String) (p : String) :
    loopYield (f + 1) dom p =
      if neOpt p dom then
        match stripLeft p with
        | none => ([p], false)
        | some p2 => (p :: (loopYield f dom p2).1, (loopYield f dom p2).2)
      else
        match dom with
        | some t => ([t], true)
        | none => ([], true) := rfl

theorem ancestorChain_succ (f : Nat) (p d : String) :
    ancestorChain (f + 1) p d =
      if p = d then [d] else p :: ancestorChain f ((stripLeft p).getD "") d := rfl

theorem stripLeft_append {p : String} {q : List Char} {d : String}
    (hp : p.data = q ++ '.' :: d.data) :
    ∃ p2, stripLeft p = some p2 ∧ p2.data.length < p.data.length ∧
      (p2 = d ∨ ∃ q2, p2.data = q2 ++ '.' :: d.data) := by
  have hsplit : splitDot p = splitDot (String.mk q) ++ splitDot d :=
    splitDot_of_data_append hp
  cases hq0 : splitDot (String.mk q) with
  | nil => exact absurd hq0 (splitDot_ne_nil _)
  | cons l0 ls0 =>
    cases hd0 : splitDot d with
    | nil => exact absurd hd0 (splitDot_ne_nil _)
    | cons m0 ms0 =>
      have hsp : splitDot p = l0 :: (ls0 ++ m0 :: ms0) := by
        rw [hsplit, hq0, hd0]
        rfl
      have hstrip : stripLeft p = some (joinDot (ls0 ++ m0 :: ms0)) := by
        unfold stripLeft
        rw [hsp]
        cases ls0 with
        | nil => rfl
        | cons a as => rfl
      refine ⟨joinDot (ls0 ++ m0 :: ms0), hstrip, ?_, ?_⟩
      · have hpd : p.data = l0.data ++ '.' :: (joinDot (ls0 ++ m0 :: ms0)).data := by
          have h5 := joinDot_splitDot p
          rw [hsp] at h5
          have h6 := joinDot_cons l0 (ls0 ++ m0 :: ms0) (by simp)
          rw [← h5, h6]
        rw [hpd]
        simp only [List.length_append, List.length_cons]
        omega
      · cases ls0 with
        | nil =>
          left
          have : joinDot ([] ++ m0 :: ms0) = joinDot (splitDot d) := by
            rw [hd0]
            rfl
          rw [this, joinDot_splitDot]
        | cons a as =>
          right
          refine ⟨(joinDot (a :: as)).data, ?_⟩
          have h7 := joinDot_append (a :: as) (m0 :: ms0) (by simp) (by simp)
          rw [h7]
          have : (joinDot (m0 :: ms0)).data = d.data := by
            have h8 := joinDot_splitDot d
            rw [hd0] at h8
            rw [h8]
          rw [this]

theorem loopYield_chain (d : String) (n : Nat) :
    ∀ p, p.data.length < n →
      (p = d ∨ ∃ q, p.data = q ++ '.' :: d.data) →
      ∀ f1 f2, p.data.length < f1 → p.data.length < f2 →
        loopYield f1 (some d) p = (ancestorChain f2 p d, true)
        ∧ ancestorChain f2 p d ≠ []
        ∧ (ancestorChain f2 p d).getLast? = some d := by
  induction n with
  | zero =>
    intro p hp
    omega
  | succ n ih =>
    intro p hp hsuf f1 f2 hf1 hf2
    cases f1 with
    | zero => omega
    | succ f1 =>
      cases f2 with
      | zero => omega
      | succ f2 =>
        by_cases hpd : p = d
        · rw [loopYield_succ, ancestorChain_succ, if_pos hpd,
            if_neg (by simp [neOpt, hpd])]
          exact ⟨rfl, by simp, by simp⟩
        · rcases hsuf with h1 | ⟨q, h2⟩
          · exact absurd h1 hpd
          · obtain ⟨p2, hstrip, hlen, hsuf2⟩ := stripLeft_append h2
            have hrec := ih p2 (by omega) hsuf2 f1 f2 (by omega) (by omega)
            rw [loopYield_succ, ancestorChain_succ,
              if_pos (show neOpt p (some d) = true by simp [neOpt, hpd]),
              if_neg hpd]
            simp only [hstrip, Option.getD_some]
            rw [hrec.1]
            refine ⟨rfl, by simp, ?_⟩
            obtain ⟨-, hne2, hlast2⟩ := hrec
            cases hch : ancestorChain f2 p2 d with
            | nil => exact absurd hch hne2
            | cons c cs =>
              rw [List.getLast?_cons_cons]
              rw [hch] at hlast2
              exact hlast2

/-- C6 counterexample: with the single exception rule '!com' and host
'co.com', the registrable domain is present ('co.') and differs from the
normalized host, yet the domain is not an ancestor of the host: the strip
loop yields 'com' and then raises IndexError, so `parents` fails instead
of producing a chain ending with the domain, and `parent` returns 'com'. -/
theorem C6_counterexample :
    Rule.make "!com" = some { is_exception := true, labels := ["com"], s := "com" }
    ∧ SuffixList.domain [{ is_exception := true, labels := ["com"], s := "com" }] "co.com"
        = some (some "co.")
    ∧ ("co.com" : String) ≠ "co."
    ∧ SuffixList.iterParents [{ is_exception := true, labels := ["com"], s := "com" }]
        "co.com" = some (["com"], false)
    ∧ SuffixList.parents [{ is_exception := true, labels := ["com"], s := "com" }] "co.com"
        = none
    ∧ SuffixList.parent [{ is_exception := true, labels := ["com"], s := "com" }] "co.com"
        = some (some "com") :=
  ⟨rfl, rfl, by decide, rfl, rfl, rfl⟩

/-- C6 (amended): when the registrable domain of the normalized host is
present, differs from it, and is a trailing dot-suffix of it, `parents` is
exactly the chain obtained by repeatedly stripping the leftmost label
starting from the host's immediate parent, ending with and including the
domain, exclusive of the host, most specific first; and `parent` is its
first element. -/
theorem C6_parents_chain (rules : SuffixList) (host h d : String)
    (hn : _normalize host = some h)
    (hd : SuffixList.domain rules h = some (some d))
    (hne : d ≠ h)
    (hsuf : ∃ q, h.data = q ++ '.' :: d.data) :
    ∃ p0, stripLeft h = some p0
      ∧ SuffixList.iterParents rules host = some (ancestorChain h.length p0 d, true)
      ∧ ancestorChain h.length p0 d ≠ []
      ∧ (ancestorChain h.length p0 d).getLast? = some d
      ∧ SuffixList.parents rules host = some (ancestorChain h.length p0 d)
      ∧ SuffixList.parent rules host = some ((ancestorChain h.length p0 d).head?) := by
  obtain ⟨q, hq⟩ := hsuf
  obtain ⟨p0, hstrip, hlen, hsuf0⟩ := stripLeft_append hq
  have hneOpt : neOpt h (some d) = true := by
    simp only [neOpt, bne_iff_ne, ne_eq, decide_eq_true_eq]
    exact fun hh => hne hh.symm
  have hiter : SuffixList.iterParents rules host
      = some (loopYield (h.length + 1) (some d) p0) := by
    unfold SuffixList.iterParents
    simp only [hn, hd]
    rw [if_pos hneOpt]
    simp only [hstrip]
  have hchain := loopYield_chain d (h.data.length + 1) p0 (by omega) hsuf0
    (h.length + 1) h.length (by rw [string_length]; omega)
    (by rw [string_length]; omega)
  obtain ⟨hloop, hchne, hchlast⟩ := hchain
  rw [hloop] at hiter
  refine ⟨p0, hstrip, hiter, hchne, hchlast, ?_, ?_⟩
  · unfold SuffixList.parents
    rw [hiter]
  · unfold SuffixList.parent
    rw [hiter]
    cases hch : ancestorChain h.length p0 d with
    | nil => exact absurd hch hchne
    | cons c cs => rfl

theorem C6_witness :
    SuffixList.parents [{ is_exception := false, labels := ["com"], s := "com" }]
      "www.sub.example.com" = some ["sub.example.com", "example.com"]
    ∧ SuffixList.parent [{ is_exception := false, labels := ["com"], s := "com" }]
      "www.sub.example.com" = some (some "sub.example.com") := by
  obtain ⟨p0, hstrip, _, _, _, hparents, hparent⟩ := C6_parents_chain
    [{ is_exception := false, labels := ["com"], s := "com" }]
    "www.sub.example.com" "www.sub.example.com" "example.com" rfl rfl (by decide)
    ⟨("www.sub" : String).data, by decide⟩
  have hp0 : p0 = "sub.example.com" := by
    have h2 : some p0 = some "sub.example.com" := by
      rw [← hstrip]
      rfl
    exact Option.some_inj.mp h2
  subst hp0
  constructor
  · rw [hparents]
    rfl
  · rw [hparent]
    rfl

/-! ### Helpers for the idempotence analysis -/

theorem labelsFit_take_of_le {rl Y : List String} {a : Nat} (ha : rl.length ≤ a) :
    labelsFit rl (Y.take a) = labelsFit rl Y := by
  have h1 := labelsFit_take rl (Y.take a)
  have h2 := labelsFit_take rl Y
  rw [List.take_take, min_eq_left ha] at h1
  rw [← h1, h2]

theorem renorm_labelsR_take {g g' : String} (hg : normalForm g)
    (hn : _normalize g = some g') :
    (splitDot g').reverse = ((splitDot g).reverse).take ((splitDot g').length) := by
  rcases renorm_splitDot hg hn with h | h
  · rw [h, ← List.length_reverse (splitDot g'), List.take_length]
  · rw [h, List.reverse_cons, ← List.length_reverse (splitDot g'), List.take_left]

theorem match'_true_take {r : Rule} {g g' : String} (hg : normalForm g)
    (hn : _normalize g = some g') :
    (Rule.match' r g = some true ↔
      r.labels.length ≤ (splitDot g').length ∧
        labelsFit r.labels ((splitDot g).reverse) = true) := by
  rw [match'_true_iff hn]
  constructor
  · rintro ⟨h1, h2⟩
    refine ⟨h1, ?_⟩
    rw [renorm_labelsR_take hg hn, labelsFit_take_of_le h1] at h2
    exact h2
  · rintro ⟨h1, h2⟩
    refine ⟨h1, ?_⟩
    rw [renorm_labelsR_take hg hn, labelsFit_take_of_le h1]
    exact h2

theorem getLastD_irrel {α : Type} {l : List α} (hl : l ≠ []) (d1 d2 : α) :
    l.getLastD d1 = l.getLastD d2 := by
  rw [List.getLastD_eq_getLast?, List.getLastD_eq_getLast?]
  cases hl2 : l.getLast? with
  | none => exact absurd (List.getLast?_eq_none_iff.mp hl2) hl
  | some a => rfl

theorem getLastD_cons_of_ne_nil {α : Type} {l : List α} (hl : l ≠ []) (a d : α) :
    (a :: l).getLastD d = l.getLastD d := by
  rw [List.getLastD_cons]
  exact getLastD_irrel hl a d

theorem take_getLastD {α : Type} (l : List α) (n : Nat) (hn1 : 1 ≤ n) (hn2 : n ≤ l.length)
    (d : α) : (l.take n).getLastD d = l.getD (n - 1) d := by
  rw [List.getLastD_eq_getLast?, List.getLast?_eq_getElem?, List.getD_eq_getElem?_getD]
  have hlen : (l.take n).length = n := by
    rw [List.length_take]
    omega
  rw [hlen, List.getElem?_take, if_pos (by omega)]

theorem ne_of_data_length {s t : String} (h : s.data.length ≠ t.data.length) : s ≠ t := by
  intro h0
  rw [h0] at h
  exact h rfl

theorem splitDot_singleton {x : String} (hx : ('.' : Char) ∉ x.data) : splitDot x = [x] := by
  unfold splitDot
  rw [splitDotCh_of_noDot x.data hx]
  rfl

theorem mem_char_splitDot {c : Char} {l s : String} (hl : l ∈ splitDot s)
    (hc : c ∈ l.data) : c ∈ s.data := by
  unfold splitDot at hl
  rcases List.mem_map.mp hl with ⟨lc, hlc, rfl⟩
  exact mem_of_mem_splitDotCh hlc hc

theorem mem_char_joinDot {c : Char} {L : List String} (hc : c ∈ (joinDot L).data) :
    (∃ l ∈ L, c ∈ l.data) ∨ c = '.' := by
  rw [data_joinDot] at hc
  rcases mem_joinDotCh hc with ⟨lc, hlc, hclc⟩ | hdot2
  · rcases List.mem_map.mp hlc with ⟨l, hl, rfl⟩
    exact Or.inl ⟨l, hl, hclc⟩
  · exact Or.inr hdot2

theorem data_ne_nil_of_ne_empty {x : String} (hx : x ≠ "") : x.data ≠ [] := by
  intro h0
  exact hx (string_data_inj h0)

/-- Matching the candidate registrable domain `d` (whose reversed labels
are the first `m+1` reversed labels of `g`) agrees with matching `g`
itself for every rule of up to `m+1` labels, and longer rules match
neither. -/
theorem match_transfer {g g' d : String} {m : Nat}
    (hg : normalForm g) (hg' : _normalize g = some g')
    (hdnorm : _normalize d = some d)
    (hdR : (splitDot d).reverse = ((splitDot g).reverse).take (m + 1))
    (hmk : m + 1 ≤ (splitDot g).length)
    (hm1k : m + 1 ≤ (splitDot g').length) :
    ∀ r : Rule, Rule.match' r d = some true ↔
      (r.labels.length ≤ m + 1 ∧ Rule.match' r g = some true) := by
  intro r
  have hnf_d : normalForm d := normalize_normalForm hdnorm
  have hdlen : (splitDot d).length = m + 1 := by
    have h1 := congrArg List.length hdR
    rw [List.length_reverse, List.length_take, List.length_reverse] at h1
    omega
  rw [match'_true_take hnf_d hdnorm, match'_true_take hg hg', hdlen]
  constructor
  · rintro ⟨h1, h2⟩
    rw [hdR, labelsFit_take_of_le h1] at h2
    exact ⟨h1, by omega, h2⟩
  · rintro ⟨h1, h2, h3⟩
    refine ⟨h1, ?_⟩
    rw [hdR, labelsFit_take_of_le h1]
    exact h3

/-- Main engine for idempotence: when `tld` selected the last `m` labels
of `g` as the suffix `t` (with `m ≥ 1` proper), and the resulting domain
value `d` does not start with '.', resolving `d` again selects the same
suffix `t`, so `domain(d) = d`. -/
theorem domain_idem_main {rules : List Rule} {h g t d : String} {m : Nat} {ms : List Rule}
    (hnf_h : normalForm h)
    (hg : _normalize h = some g)
    (hm1 : 1 ≤ m) (hmk : m < (splitDot g).length)
    (ht_eq : t = lastLabels m g)
    (hdval : d = pyLastLabel (pyDropRight h (t.length + 1)) ++ "." ++ t)
    (hdot : pyStartsWith d "." = false)
    (hms : matchersM rules g = some ms)
    (hcase : (sortRules ms = [] ∧ m = 1)
      ∨ (∃ r0 rest, sortRules ms = r0 :: rest ∧ r0.is_exception = true
          ∧ r0.labels.length = m + 1)
      ∨ (∃ r0 rest, sortRules ms = r0 :: rest ∧ r0.is_exception = false
          ∧ r0.labels.length = m)) :
    SuffixList.domain rules d = some (some d) := by
  have hnf_g : normalForm g := normalize_normalForm hg
  have hsufg : g.data
      = (joinDot ((splitDot g).take ((splitDot g).length - m))).data ++ '.' :: t.data := by
    rw [ht_eq]
    exact lastLabels_suffix hm1 hmk
  have hAne : (splitDot g).take ((splitDot g).length - m) ≠ [] := by
    intro h0
    rcases List.take_eq_nil_iff.mp h0 with h1 | h1
    · omega
    · exact splitDot_ne_nil g h1
  have hAsub : ∀ l ∈ (splitDot g).take ((splitDot g).length - m), l ∈ splitDot g :=
    fun l hl => List.mem_of_mem_take hl
  have hAdot : ∀ l ∈ (splitDot g).take ((splitDot g).length - m), ('.' : Char) ∉ l.data :=
    fun l hl => noDot_splitDot g l (hAsub l hl)
  have hsplitA : splitDot (joinDot ((splitDot g).take ((splitDot g).length - m)))
      = (splitDot g).take ((splitDot g).length - m) :=
    splitDot_joinDot _ hAne hAdot
  -- the label immediately left of the boundary, in both renormalization cases
  have hx : pyLastLabel (pyDropRight h (t.length + 1))
      = ((splitDot g).take ((splitDot g).length - m)).getLastD "" := by
    rcases renorm_data hnf_h hg with hgh | hgh
    · have hsufh : h.data
          = (joinDot ((splitDot g).take ((splitDot g).length - m))).data ++ '.' :: t.data := by
        rw [← hgh]
        exact hsufg
      rw [pyDropRight_suffix hsufh, pyLastLabel_eq, string_mk_data, hsplitA]
    · have hsufh : h.data
          = ('.' :: (joinDot ((splitDot g).take ((splitDot g).length - m))).data)
            ++ '.' :: t.data := by
        rw [hgh, hsufg]
        rfl
      rw [pyDropRight_suffix hsufh, pyLastLabel_eq]
      have hsp : splitDot (String.mk
          ('.' :: (joinDot ((splitDot g).take ((splitDot g).length - m))).data))
          = "" :: (splitDot g).take ((splitDot g).length - m) := by
        rw [splitDot_of_data_append
          (s := String.mk ('.' :: (joinDot ((splitDot g).take ((splitDot g).length - m))).data))
          (a := []) (b := (joinDot ((splitDot g).take ((splitDot g).length - m))).data) rfl]
        rw [string_mk_data, hsplitA]
        rfl
      rw [hsp, getLastD_cons_of_ne_nil hAne]
  have hxd : d = ((splitDot g).take ((splitDot g).length - m)).getLastD "" ++ "." ++ t := by
    rw [hdval, hx]
  -- x is a dot-free label of g
  have hx_mem : ((splitDot g).take ((splitDot g).length - m)).getLastD "" ∈ splitDot g := by
    rcases List.eq_nil_or_concat ((splitDot g).take ((splitDot g).length - m))
      with h0 | ⟨B, xa, hBx⟩
    · exact absurd h0 hAne
    · rw [List.concat_eq_append] at hBx
      rw [hBx, List.getLastD_concat]
      apply hAsub
      rw [hBx]
      simp
  have hx_nodot : ('.' : Char)
      ∉ (((splitDot g).take ((splitDot g).length - m)).getLastD "").data :=
    noDot_splitDot g _ hx_mem
  have hx_ne : ((splitDot g).take ((splitDot g).length - m)).getLastD "" ≠ "" := by
    intro h0
    have hdd : d.data = '.' :: t.data := by
      rw [hxd, h0, data_append3]
      rfl
    have hsw : pyStartsWith d "." = true := startsDot_iff.mpr (by rw [hdd]; rfl)
    rw [hsw] at hdot
    cases hdot
  have hd_data : d.data
      = (((splitDot g).take ((splitDot g).length - m)).getLastD "").data ++ '.' :: t.data := by
    rw [hxd, data_append3]
  have hsplit_t : splitDot t = (splitDot g).drop ((splitDot g).length - m) := by
    rw [ht_eq]
    exact splitDot_lastLabels hm1 (by omega)
  have hsplit_d : splitDot d
      = ((splitDot g).take ((splitDot g).length - m)).getLastD "" :: splitDot t := by
    rw [splitDot_of_data_append hd_data, string_mk_data,
      splitDot_singleton hx_nodot]
    rfl
  have hlen_t : (splitDot t).length = m := by
    rw [hsplit_t, List.length_drop]
    omega
  have hlen_d : (splitDot d).length = m + 1 := by
    rw [hsplit_d]
    simp [hlen_t]
  -- reversed labels of d are the first m+1 reversed labels of g
  have hx_getD : (splitDot g).getD ((splitDot g).length - m - 1) ""
      = ((splitDot g).take ((splitDot g).length - m)).getLastD "" := by
    rw [take_getLastD (splitDot g) ((splitDot g).length - m) (by omega) (by omega)]
  have hdR : (splitDot d).reverse = ((splitDot g).reverse).take (m + 1) := by
    rw [hsplit_d, List.reverse_cons, List.take_succ]
    have h1 : (splitDot t).reverse = ((splitDot g).reverse).take m := by
      rw [hsplit_t, List.take_reverse]
    have h2 : ((splitDot g).reverse)[m]?
        = some (((splitDot g).take ((splitDot g).length - m)).getLastD "") := by
      rw [List.getElem?_reverse (by omega)]
      rw [List.getElem?_eq_getElem (by omega)]
      rw [← hx_getD]
      congr 1
      rw [List.getD_eq_getElem (splitDot g) "" (by omega)]
      congr 1
      omega
    rw [h1, h2]
    rfl
  have hd_chars : ∀ c ∈ d.data, c ∈ g.data ∨ c = '.' := by
    intro c hc
    rw [hd_data] at hc
    rcases List.mem_append.mp hc with h1 | h2
    · exact Or.inl (mem_char_splitDot hx_mem h1)
    · rcases List.mem_cons.mp h2 with h3 | h4
      · exact Or.inr h3
      · rw [ht_eq] at h4
        unfold lastLabels at h4
        rcases mem_char_joinDot h4 with ⟨l, hl, hcl⟩ | h5
        · exact Or.inl (mem_char_splitDot (List.mem_of_mem_drop hl) hcl)
        · exact Or.inr h5
  have hnf_d : normalForm d := by
    constructor
    · rw [hd_data]
      simp
    · intro c hc
      rcases hd_chars c hc with h1 | h1
      · exact hnf_g.2 c h1
      · subst h1
        exact ⟨by decide, by decide⟩
  have hdnorm : _normalize d = some d := normalize_of_normalForm_nodot hnf_d hdot
  have hg_ne_dot : g ≠ "." := by
    intro h0
    apply hx_ne
    have hm2 : m = 1 := by
      have h1 : (splitDot ".").length = 2 := rfl
      rw [h0, h1] at hmk
      omega
    rw [h0, hm2]
    rfl
  obtain ⟨g', hg'⟩ := normalize_normalForm_isSome hnf_g hg_ne_dot
  have hm1k : m + 1 ≤ (splitDot g').length := by
    rcases renorm_splitDot hnf_g hg' with hr | hr
    · have h1 : (splitDot g).length = (splitDot g').length := by rw [hr]
      omega
    · have hlen2 : (splitDot g).length = (splitDot g').length + 1 := by
        rw [hr]
        rfl
      by_contra hlt
      apply hx_ne
      have h1 : (splitDot g).length - m = 1 := by omega
      rw [h1, hr]
      rfl
  have hiff := match_transfer hnf_g hg' hdnorm hdR (by omega) hm1k
  obtain ⟨msd, hmsd⟩ := matchersM_isSome (g := d) (fun r _ => match'_isSome hdnorm)
  have hlast_d : lastLabels m d = t := by
    unfold lastLabels
    rw [hlen_d, hsplit_d]
    have h1 : m + 1 - m = 1 := by omega
    rw [h1, List.drop_succ_cons, List.drop_zero]
    exact joinDot_splitDot t
  have hconclude : tldBody rules d = some t → SuffixList.domain rules d = some (some d) := by
    intro htld_d
    have htd : SuffixList.tld rules d = some t := by
      rw [tld_norm hdnorm]
      exact htld_d
    have hne_d : d ≠ t := by
      apply ne_of_data_length
      rw [hd_data]
      simp only [List.length_append, List.length_cons]
      omega
    rw [domain_some hdnorm htd hne_d]
    have hvd : pyDropRight d (t.length + 1)
        = String.mk ((((splitDot g).take ((splitDot g).length - m)).getLastD "").data) :=
      pyDropRight_suffix hd_data
    rw [hvd, string_mk_data, pyLastLabel_eq, splitDot_singleton hx_nodot,
      show ∀ y : String, ([y]).getLastD "" = y from fun y => rfl, ← hxd]
  rcases hcase with ⟨hsort, hm_eq⟩ | ⟨r0, rest, hsort, hexc0, hlen0⟩
    | ⟨r0, rest, hsort, hexc0, hlen0⟩
  · subst hm_eq
    have hms_nil : ms = [] := sortRules_eq_nil_iff.mp hsort
    have hmsd_nil : msd = [] := by
      rw [List.eq_nil_iff_forall_not_mem]
      intro r hr
      have h1 := (matchersM_mem hmsd r).mp hr
      have h2 := (hiff r).mp h1.2
      have h3 : r ∈ ms := (matchersM_mem hms r).mpr ⟨h1.1, h2.2⟩
      rw [hms_nil] at h3
      exact absurd h3 (by simp)
    apply hconclude
    rw [tldBody_no_match hmsd (by rw [hmsd_nil]; rfl), pyLastLabel_eq_lastLabels, hlast_d]
  · have hr0_ms : r0 ∈ ms := sortRules_head_mem hsort
    have hr0_rules : r0 ∈ rules := ((matchersM_mem hms r0).mp hr0_ms).1
    have hr0_g : Rule.match' r0 g = some true := ((matchersM_mem hms r0).mp hr0_ms).2
    have hr0_d : Rule.match' r0 d = some true := (hiff r0).mpr ⟨by omega, hr0_g⟩
    have hr0_msd : r0 ∈ msd := (matchersM_mem hmsd r0).mpr ⟨hr0_rules, hr0_d⟩
    cases hsort_d : sortRules msd with
    | nil =>
      rw [sortRules_eq_nil_iff.mp hsort_d] at hr0_msd
      exact absurd hr0_msd (by simp)
    | cons r2 rest2 =>
      have hr2_msd : r2 ∈ msd := sortRules_head_mem hsort_d
      have hr2_d := (matchersM_mem hmsd r2).mp hr2_msd
      have hr2_g : Rule.match' r2 g = some true := ((hiff r2).mp hr2_d.2).2
      have hr2_ms : r2 ∈ ms := (matchersM_mem hms r2).mpr ⟨hr2_d.1, hr2_g⟩
      have hle1 : ruleLe r2 r0 = true := sortRules_head_le hsort_d r0 hr0_msd
      have hle2 : ruleLe r0 r2 = true := sortRules_head_le hsort r2 hr2_ms
      obtain ⟨hsh_e, hsh_l⟩ := ruleLe_tie hle2 hle1
      have hbest_d := tldBody_best hnf_d hdnorm hmsd hsort_d
      apply hconclude
      rw [hbest_d.1 (by rw [← hsh_e]; exact hexc0)]
      rw [show r2.labels.length - 1 = m from by omega]
      rw [hlast_d]
  · have hr0_ms : r0 ∈ ms := sortRules_head_mem hsort
    have hr0_rules : r0 ∈ rules := ((matchersM_mem hms r0).mp hr0_ms).1
    have hr0_g : Rule.match' r0 g = some true := ((matchersM_mem hms r0).mp hr0_ms).2
    have hr0_d : Rule.match' r0 d = some true := (hiff r0).mpr ⟨by omega, hr0_g⟩
    have hr0_msd : r0 ∈ msd := (matchersM_mem hmsd r0).mpr ⟨hr0_rules, hr0_d⟩
    cases hsort_d : sortRules msd with
    | nil =>
      rw [sortRules_eq_nil_iff.mp hsort_d] at hr0_msd
      exact absurd hr0_msd (by simp)
    | cons r2 rest2 =>
      have hr2_msd : r2 ∈ msd := sortRules_head_mem hsort_d
      have hr2_d := (matchersM_mem hmsd r2).mp hr2_msd
      have hr2_g : Rule.match' r2 g = some true := ((hiff r2).mp hr2_d.2).2
      have hr2_ms : r2 ∈ ms := (matchersM_mem hms r2).mpr ⟨hr2_d.1, hr2_g⟩
      have hle1 : ruleLe r2 r0 = true := sortRules_head_le hsort_d r0 hr0_msd
      have hle2 : ruleLe r0 r2 = true := sortRules_head_le hsort r2 hr2_ms
      obtain ⟨hsh_e, hsh_l⟩ := ruleLe_tie hle2 hle1
      have hbest_d := tldBody_best hnf_d hdnorm hmsd hsort_d
      apply hconclude
      rw [hbest_d.2.2 (by rw [← hsh_e]; exact hexc0) (by rw [hlen_d, ← hsh_l, hlen0]; omega)]
      rw [show r2.labels.length = m from by omega]
      rw [hlast_d]

/-- C8 counterexample: idempotence fails twice over.  With rule 'com' and
host '..com', domain = '.com' but domain('.com') is absent (re-normalizing
strips the leading dot).  With rules '!com' and 'co.' and host 'co.com'
(a one-label exception rule is best, so the suffix is empty), domain =
'co.' but domain('co.') is absent. -/
theorem C8_counterexample :
    Rule.make "com" = some { is_exception := false, labels := ["com"], s := "com" }
    ∧ SuffixList.domain [{ is_exception := false, labels := ["com"], s := "com" }] "..com"
        = some (some ".com")
    ∧ SuffixList.domain [{ is_exception := false, labels := ["com"], s := "com" }] ".com"
        = some none
    ∧ Rule.make "!com" = some { is_exception := true, labels := ["com"], s := "com" }
    ∧ Rule.make "co." = some { is_exception := false, labels := ["", "co"], s := "co." }
    ∧ SuffixList.domain [{ is_exception := true, labels := ["com"], s := "com" },
        { is_exception := false, labels := ["", "co"], s := "co." }] "co.com"
        = some (some "co.")
    ∧ SuffixList.domain [{ is_exception := true, labels := ["com"], s := "com" },
        { is_exception := false, labels := ["", "co"], s := "co." }] "co."
        = some none :=
  ⟨rfl, rfl, rfl, rfl, rfl, rfl, rfl⟩

/-- C8 (amended): for every rule set of well-formed rules and every host
whose registrable domain is present, does not begin with '.', and was not
produced by a best-matching one-label exception rule, resolving the
domain again returns the same domain: `domain(domain(h)) = domain(h)`. -/
theorem C8_domain_idempotent (rules : SuffixList) (host h d : String)
    (hn : _normalize host = some h)
    (hd : SuffixList.domain rules host = some (some d))
    (hdot : pyStartsWith d "." = false)
    (hwf : ∀ r ∈ rules, r.labels ≠ [])
    (hexc : ∀ g r, _normalize h = some g → bestMatch rules g = some (some r) →
      ¬(r.is_exception = true ∧ r.labels.length = 1)) :
    SuffixList.domain rules d = some (some d) := by
  have hnf_h : normalForm h := normalize_normalForm hn
  obtain ⟨t, ht, hne, hdval⟩ := domain_some_inv hn hd
  obtain ⟨g, hg, hbody⟩ := tld_some_inv ht
  have hnf_g : normalForm g := normalize_normalForm hg
  have t_ne_g : t ≠ g := by
    intro htg
    rcases renorm_data hnf_h hg with hgh | hgh
    · apply hne
      rw [htg, hgh]
    · have hsufh : h.data = [] ++ '.' :: t.data := by
        rw [List.nil_append, htg]
        exact hgh
      have hx0 : pyDropRight h (t.length + 1) = String.mk [] := pyDropRight_suffix hsufh
      have hd0 : d = "" ++ "." ++ t := by
        rw [hdval, hx0]
        rfl
      have hdd : d.data = '.' :: t.data := by
        rw [hd0, data_append3]
        rfl
      have hsw : pyStartsWith d "." = true := startsDot_iff.mpr (by rw [hdd]; rfl)
      rw [hsw] at hdot
      cases hdot
  cases hms : matchersM rules g with
  | none =>
    unfold tldBody at hbody
    rw [hms] at hbody
    cases hbody
  | some ms =>
    cases hsort : sortRules ms with
    | nil =>
      rw [tldBody_no_match hms hsort] at hbody
      have ht_eq : t = lastLabels 1 g := by
        rw [← pyLastLabel_eq_lastLabels]
        exact (Option.some_inj.mp hbody).symm
      have hk2 : 1 < (splitDot g).length := by
        by_contra hlt
        apply t_ne_g
        have hk1 : (splitDot g).length = 1 := by
          have := splitDot_length_pos g
          omega
        rw [ht_eq]
        unfold lastLabels
        rw [hk1, Nat.sub_self, List.drop_zero]
        exact joinDot_splitDot g
      exact domain_idem_main hnf_h hg (le_refl 1) hk2 ht_eq hdval hdot hms
        (Or.inl ⟨hsort, rfl⟩)
    | cons r0 rest =>
      have hr0_ms : r0 ∈ ms := sortRules_head_mem hsort
      have hr0_rules : r0 ∈ rules := ((matchersM_mem hms r0).mp hr0_ms).1
      have hr0_g : Rule.match' r0 g = some true := ((matchersM_mem hms r0).mp hr0_ms).2
      obtain ⟨g', hg'⟩ := match'_some_inv hr0_g
      have hlen' : r0.labels.length ≤ (splitDot g').length :=
        ((match'_true_iff hg').mp hr0_g).1
      have hk2' : (splitDot g').length ≤ (splitDot g).length := renorm_length_le hnf_g hg'
      have hn1 : 1 ≤ r0.labels.length := List.length_pos.mpr (hwf r0 hr0_rules)
      have hbest := tldBody_best hnf_g hg' hms hsort
      cases hexc0 : r0.is_exception with
      | true =>
        have hbm : bestMatch rules g = some (some r0) := by
          unfold bestMatch
          simp only [hms, hsort]
          rfl
        have hn2 : r0.labels.length ≠ 1 := by
          intro h1
          exact hexc g r0 hg hbm ⟨hexc0, h1⟩
        rw [hbest.1 hexc0] at hbody
        have ht_eq : t = lastLabels (r0.labels.length - 1) g :=
          (Option.some_inj.mp hbody).symm
        exact domain_idem_main hnf_h hg (by omega) (by omega) ht_eq hdval hdot hms
          (Or.inr (Or.inl ⟨r0, rest, hsort, hexc0, by omega⟩))
      | false =>
        by_cases hkn : (splitDot g).length = r0.labels.length
        · rw [hbest.2.1 hexc0 hkn] at hbody
          exact absurd (Option.some_inj.mp hbody).symm t_ne_g
        · rw [hbest.2.2 hexc0 hkn] at hbody
          have ht_eq : t = lastLabels r0.labels.length g :=
            (Option.some_inj.mp hbody).symm
          exact domain_idem_main hnf_h hg hn1 (by omega) ht_eq hdval hdot hms
            (Or.inr (Or.inr ⟨r0, rest, hsort, hexc0, rfl⟩))

theorem C8_witness :
    SuffixList.domain [{ is_exception := false, labels := ["com"], s := "com" }]
      "example.com" = some (some "example.com") := by
  have h := C8_domain_idempotent [{ is_exception := false, labels := ["com"], s := "com" }]
    "www.example.com" "www.example.com" "example.com" rfl rfl rfl (by decide) ?_
  · exact h
  · intro g r hg2 hbm
    have hgg : g = "www.example.com" := by
      have h2 : _normalize "www.example.com" = some "www.example.com" := rfl
      rw [h2] at hg2
      exact (Option.some_inj.mp hg2).symm
    subst hgg
    have hrr : r = { is_exception := false, labels := ["com"], s := "com" } := by
      have h2 : bestMatch [{ is_exception := false, labels := ["com"], s := "com" }]
          "www.example.com"
          = some (some { is_exception := false, labels := ["com"], s := "com" }) := rfl
      rw [h2] at hbm
      exact (Option.some_inj.mp (Option.some_inj.mp hbm)).symm
    subst hrr
    simp
